import Mathlib

/-!
# gh-fetch: a verification development for `main.go`

The program lists the assets of one GitHub release in a terminal table and
downloads the selected asset.  This file embeds the parts of `main.go` that the
checked properties talk about:

* `humanReadableSize` together with the `float64` arithmetic and the `%.Nf`
  formatting it relies on;
* the `Release` record, `getReleaseInfo`, `renderTable` and the start-up part of
  `main`, with `api.DefaultRESTClient()` and the REST client as an explicit boundary;
* the Bubble Tea session `model` and its `Update` function, together with the
  part of the imported `bubbles/table` component that `Update` calls;
* the file name that `downloadFile` hands to `os.Create`.

A Go run-time panic (index out of range) is modelled by `none`.  Go strings are modelled
by Lean strings; the one byte-level operation of the program, the split of a URL at the
one-byte separator "/", is the same on characters.
-/

namespace GhFetch

/-! ## `float64` values

A finite `float64` is modelled by the rational number it denotes.  Arithmetic
results are rounded to the nearest representable value, ties to even, as
IEEE 754 prescribes.  Infinities and NaN are outside the model;
`humanReadableSize` cannot produce them from finite arguments, because it only
divides values `s ≥ base` by `base`.  `f64Round` itself has no largest exponent; the
range bound of the format is part of `IsF64`. -/

/-- Round a rational to the nearest integer, ties to the even neighbour. -/
def roundHalfEven (q : ℚ) : ℤ :=
  let f := ⌊q⌋
  let r := q - f
  if r < 1 / 2 then f
  else if 1 / 2 < r then f + 1
  else if f % 2 = 0 then f else f + 1

/-- Binary exponent of the binade that holds `q`; subnormals share the exponent `-1022`. -/
def f64Exp (q : ℚ) : ℤ := max (Int.log 2 |q|) (-1022)

/-- Spacing of the `float64` values in the binade of `q` (53 significant bits). -/
def f64Ulp (q : ℚ) : ℚ := 2 ^ (f64Exp q - 52)

/-- Round to nearest `float64`, ties to even. -/
def f64Round (q : ℚ) : ℚ := roundHalfEven (q / f64Ulp q) * f64Ulp q

/-- The rational `q` is a finite `float64` value. -/
def IsF64 (q : ℚ) : Prop := f64Round q = q ∧ |q| < 2 ^ 1024

instance : DecidablePred IsF64 := fun q => by unfold IsF64; infer_instance

/-- Go `x / y` on `float64` operands (finite result). -/
def f64Div (x y : ℚ) : ℚ := f64Round (x / y)

/-- Go conversion `float64(n)` of an `int`. -/
def f64OfInt (n : ℤ) : ℚ := f64Round n

/-! ## `fmt.Sprintf("%.Nf", x)` -/

/-- Decimal digits of `n`, left-padded with zeros to `width` characters. -/
def zeroPad (width n : ℕ) : String :=
  String.mk (List.replicate (width - (toString n).length) '0') ++ toString n

/-- Go `%.<prec>f`: the exact value of the float, correctly rounded (ties to even) to
`prec` decimal places; no decimal point when `prec = 0`. -/
def fmtFixed (q : ℚ) (prec : ℕ) : String :=
  let n := (roundHalfEven (|q| * 10 ^ prec)).toNat
  (if q < 0 then "-" else "") ++ toString (n / 10 ^ prec) ++
    (if prec = 0 then "" else "." ++ zeroPad prec (n % 10 ^ prec))

/-! ## `humanReadableSize` -/

/-- The unit ladder, `var sizes`. -/
def sizes : List String := ["B", "kB", "MB", "GB", "TB", "PB", "EB"]

/-- The loop `for s >= base && i < unitsLimit { s = s / base; i++ }`, returning the final
`s` and `i`. -/
def sizeLoop (unitsLimit : ℕ) (base : ℚ) (s : ℚ) (i : ℕ) : ℚ × ℕ :=
  if s ≥ base ∧ i < unitsLimit then sizeLoop unitsLimit base (f64Div s base) (i + 1)
  else (s, i)
termination_by unitsLimit - i

/-- The function `humanReadableSize`; `none` is the index-out-of-range panic of `sizes[i]`. -/
def humanReadableSize (s base : ℚ) : Option String :=
  let unitsLimit := sizes.length
  let r := sizeLoop unitsLimit base s 0
  let prec := if r.2 > 1 then 2 else 0
  match sizes[r.2]? with
  | none => none
  | some u => some (fmtFixed r.1 prec ++ " " ++ u)

/-- The value of `i` when the loop of `humanReadableSize s base` ends: the position in
`sizes` of the unit that is looked up. -/
def unitIndex (s base : ℚ) : ℕ := (sizeLoop sizes.length base s 0).2

/-- The value of `s` after `k` passes through the loop body `s = s / base`. -/
def divSteps (base : ℚ) : ℕ → ℚ → ℚ
  | 0, s => s
  | k + 1, s => divSteps base k (f64Div s base)

/-- What the unit loop needs from a base `b ≥ 1`: one `float64` division by `b` maps the
band `[b^(j+1), b^(j+2))` into the band `[b^j, b^(j+1))`, for the bands the ladder has.
Both 1000 and 1024 are shown to be such bases. -/
structure GoodBase (b : ℚ) : Prop where
  one_le : 1 ≤ b
  lower : ∀ j : ℕ, j ≤ 6 → ∀ s : ℚ, b ^ (j + 1) ≤ s → b ^ j ≤ f64Div s b
  upper : ∀ j : ℕ, j ≤ 5 → ∀ s : ℚ, IsF64 s → b ≤ s → s < b ^ (j + 2) → f64Div s b < b ^ (j + 1)

/-! ## Release records and the REST boundary -/

/-- An element of `Release.Assets`. Time stamps are kept as their JSON text. -/
structure Asset where
  URL : String := ""
  ID : ℤ := 0
  NodeID : String := ""
  Name : String := ""
  Label : String := ""
  ContentType : String := ""
  State : String := ""
  Size : ℤ := 0
  DownloadCount : ℤ := 0
  CreatedAt : String := ""
  UpdatedAt : String := ""
  BrowserDownloadURL : String := ""
deriving DecidableEq, Repr

/-- The struct `Release`. Time stamps are kept as their JSON text. -/
structure Release where
  URL : String := ""
  AssetsURL : String := ""
  UploadURL : String := ""
  HTMLURL : String := ""
  ID : ℤ := 0
  NodeID : String := ""
  TagName : String := ""
  TargetCommitish : String := ""
  Name : String := ""
  Draft : Bool := false
  Prerelease : Bool := false
  CreatedAt : String := ""
  PublishedAt : String := ""
  Assets : List Asset := []
  TarballURL : String := ""
  ZipballURL : String := ""
deriving DecidableEq, Repr

/-- What one `client.Get(url, &response)` leaves behind: the error, if any, and the
contents of `response` after the call. -/
structure RESTReply where
  err : Option String
  response : Release

/-- The method `client.Get` of a REST client: the reply to a GET, given how many requests
were sent before it and the requested path.  Successive calls may therefore answer
differently. -/
abbrev RESTClient := ℕ → String → RESTReply

/-- The boundary function `api.DefaultRESTClient()`: the client or the error that a call
returns, given how many calls were made before it. -/
abbrev ClientFactory := ℕ → Except String RESTClient

/-- The observable outside world during start-up. -/
structure World where
  clientCalls : ℕ := 0
  requests : List String := []
  stdout : List String := []
deriving DecidableEq, Repr

/-- The request path chosen by `getReleaseInfo`. -/
def releasePath (repoName tagName : String) : String :=
  if tagName = "latest" then "repos/" ++ repoName ++ "/releases/latest"
  else "repos/" ++ repoName ++ "/releases/tags/" ++ tagName

/-- The function `getReleaseInfo`.  When `api.DefaultRESTClient()` fails, the error is
printed, `client` stays nil and `client.Get` panics (`none`) before any request is sent.
Otherwise one GET goes to the release path; its error, if any, is printed and the record
is returned as the decoder left it. -/
def getReleaseInfo (api : ClientFactory) (repoName tagName : String) (w : World) :
    Option Release × World :=
  let w0 : World := { w with clientCalls := w.clientCalls + 1 }
  match api w.clientCalls with
  | Except.error err => (none, { w0 with stdout := w0.stdout ++ [err] })
  | Except.ok client =>
    let url := releasePath repoName tagName
    let reply := client w0.requests.length url
    let w1 : World := { w0 with requests := w0.requests ++ [url] }
    let w2 : World :=
      match reply.err with
      | some e => { w1 with stdout := w1.stdout ++ [e] }
      | none => w1
    (some reply.response, w2)

/-! ## The imported table component (`github.com/charmbracelet/bubbles/table`)

The package is a dependency of the program, not part of `main.go`; it is modelled after
its published source.  Only its navigation state is kept: rows, cursor, focus flag and
viewport height.  The key bindings are those of the package's `DefaultKeyMap`, which
`table.New` installs and `main.go` never changes. -/

/-- A Bubble Tea message: a key press, named by `KeyMsg.String()`, or any other message. -/
inductive tea.Msg where
  | KeyMsg (str : String)
  | other
deriving DecidableEq, Repr

/-- The commands `Update` can return. -/
inductive tea.Cmd where
  | nil
  | Quit
  | Printf (text : String)
  | Batch (cmds : List tea.Cmd)

/-- A table row is the list of its cells. -/
abbrev table.Row := List String

/-- A column header. -/
structure table.Column where
  Title : String
  Width : ℤ
deriving DecidableEq, Repr

/-- Navigation state of `table.Model`. -/
structure table.Model where
  cols : List table.Column
  rows : List table.Row
  cursor : ℤ
  focus : Bool
  viewportHeight : ℤ
deriving DecidableEq, Repr

/-- The package's `clamp(v, low, high) = min(max(v, low), high)`. -/
def table.clamp (v low high : ℤ) : ℤ := min (max v low) high

/-- The constructor `table.New(WithColumns(cols), WithRows(rows), WithFocused(focused))`: cursor 0
and the default viewport of height 20. -/
def table.New (cols : List table.Column) (rows : List table.Row) (focused : Bool) :
    table.Model :=
  { cols := cols, rows := rows, cursor := 0, focus := focused, viewportHeight := 20 }

/-- The method `Cursor()`. -/
def table.Model.Cursor (t : table.Model) : ℤ := t.cursor

/-- The method `Focused()`. -/
def table.Model.Focused (t : table.Model) : Bool := t.focus

/-- The method `Focus()`. -/
def table.Model.Focus (t : table.Model) : table.Model := { t with focus := true }

/-- The method `Blur()`. -/
def table.Model.Blur (t : table.Model) : table.Model := { t with focus := false }

/-- The method `MoveUp(n)`. -/
def table.Model.MoveUp (t : table.Model) (n : ℤ) : table.Model :=
  { t with cursor := table.clamp (t.cursor - n) 0 ((t.rows.length : ℤ) - 1) }

/-- The method `MoveDown(n)`. -/
def table.Model.MoveDown (t : table.Model) (n : ℤ) : table.Model :=
  { t with cursor := table.clamp (t.cursor + n) 0 ((t.rows.length : ℤ) - 1) }

/-- The table's own `Update`: nothing when blurred; otherwise the default key map
(`up`/`k`, `down`/`j`, `b`/`pgup`, `f`/`pgdown`/space, `u`/`ctrl+u`, `d`/`ctrl+d`,
`home`/`g`, `end`/`G`).  Its command result is always `nil`. -/
def table.Model.Update (t : table.Model) (msg : tea.Msg) : table.Model × tea.Cmd :=
  if !t.focus then (t, tea.Cmd.nil)
  else
    match msg with
    | tea.Msg.KeyMsg k =>
      if k ∈ ["up", "k"] then (t.MoveUp 1, tea.Cmd.nil)
      else if k ∈ ["down", "j"] then (t.MoveDown 1, tea.Cmd.nil)
      else if k ∈ ["b", "pgup"] then (t.MoveUp t.viewportHeight, tea.Cmd.nil)
      else if k ∈ ["f", "pgdown", " "] then (t.MoveDown t.viewportHeight, tea.Cmd.nil)
      else if k ∈ ["u", "ctrl+u"] then (t.MoveUp (Int.tdiv t.viewportHeight 2), tea.Cmd.nil)
      else if k ∈ ["d", "ctrl+d"] then (t.MoveDown (Int.tdiv t.viewportHeight 2), tea.Cmd.nil)
      else if k ∈ ["home", "g"] then (t.MoveUp t.cursor, tea.Cmd.nil)
      else if k ∈ ["end", "G"] then (t.MoveDown t.rows.length, tea.Cmd.nil)
      else (t, tea.Cmd.nil)
    | tea.Msg.other => (t, tea.Cmd.nil)

/-! ## `renderTable`, the session model and `main` -/

/-- Go indexing `xs[i]` with an `int` index; `none` is the out-of-range panic. -/
def goIndex {α : Type} (xs : List α) (i : ℤ) : Option α :=
  if 0 ≤ i then xs[i.toNat]? else none

/-- The loop `for _, assetname := range release.Assets { rows = append(rows, ...) }` of
`renderTable`: one row (name, size in base 1024) per asset, in order; `none` when the size
formatter panics. -/
def buildRows : List Asset → Option (List table.Row)
  | [] => some []
  | assetname :: rest =>
    match humanReadableSize (f64OfInt assetname.Size) 1024 with
    | none => none
    | some sz => (buildRows rest).map fun rows => [assetname.Name, sz] :: rows

/-- The function `renderTable`: fetch the release, build the rows and a focused table;
`none` when the fetch or the size formatter panics. -/
def renderTable (api : ClientFactory) (repoName tagName : String) (w : World) :
    Option table.Model × World :=
  let fetched := getReleaseInfo api repoName tagName w
  match fetched.1 with
  | none => (none, fetched.2)
  | some release =>
    let columns : List table.Column :=
      [{ Title := "Asset Name", Width := 50 }, { Title := "Size", Width := 20 }]
    ((buildRows release.Assets).map fun rows => table.New columns rows true, fetched.2)

/-- The struct `model`. -/
structure model where
  table : table.Model
  rlz : Release
deriving DecidableEq, Repr

/-- Outcome of one `Update` call: the returned model and command, and the URLs of the
downloads started in new goroutines. -/
structure UpdateResult where
  next : model
  cmd : tea.Cmd
  spawned : List String

/-- Tail of `Update`: `m.table, cmd = m.table.Update(msg); return m, cmd`. -/
def model.forward (m : model) (msg : tea.Msg) (spawned : List String) : UpdateResult :=
  let r := m.table.Update msg
  { next := { m with table := r.1 }, cmd := r.2, spawned := spawned }

/-- The method `model.Update`; `none` is the index-out-of-range panic of
`m.rlz.Assets[m.table.Cursor()]`. -/
def model.Update (m : model) (msg : tea.Msg) : Option UpdateResult :=
  match msg with
  | tea.Msg.KeyMsg k =>
    if k = "esc" then
      let t := if m.table.Focused then m.table.Blur else m.table.Focus
      some (model.forward { m with table := t } msg [])
    else if k = "q" ∨ k = "ctrl+c" then
      some { next := m, cmd := tea.Cmd.Quit, spawned := [] }
    else if k = "enter" then
      match goIndex m.rlz.Assets m.table.Cursor with
      | none => none
      | some a =>
        some { next := m,
               cmd := tea.Cmd.Batch
                 [tea.Cmd.Printf ("Download URL: curl -LO " ++ a.BrowserDownloadURL)],
               spawned := [] }
    else if k = "d" then
      match goIndex m.rlz.Assets m.table.Cursor with
      | none => none
      | some selectedAsset => some (model.forward m msg [selectedAsset.BrowserDownloadURL])
    else some (model.forward m msg [])
  | tea.Msg.other => some (model.forward m msg [])

/-- Start-up part of `main`, after flag parsing: the initial model
`model{renderTable(), getReleaseInfo(repoName, tagName)}` handed to `tea.NewProgram`,
and the world after building it.  Go evaluates the two calls left to right; a panic in
the first one ends the program before the second. -/
def main (api : ClientFactory) (repoName tagName : String) (w : World) :
    Option model × World :=
  let t := renderTable api repoName tagName w
  match t.1 with
  | none => (none, t.2)
  | some tbl =>
    let r := getReleaseInfo api repoName tagName t.2
    (r.1.map fun rlz => { table := tbl, rlz := rlz }, r.2)

/-! ## `downloadFile` -/

/-- Go `strings.LastIndex(s, sep)` for a one-character separator: position of the last
occurrence, `-1` when there is none. -/
def LastIndex : List Char → Char → ℤ
  | [], _ => -1
  | x :: xs, c =>
    let r := LastIndex xs c
    if 0 ≤ r then r + 1 else if x = c then 0 else -1

/-- Go slice expression `s[k:]`; `none` is the out-of-range panic. -/
def goSliceFrom (s : List Char) (k : ℤ) : Option (List Char) :=
  if 0 ≤ k ∧ k ≤ s.length then some (s.drop k.toNat) else none

/-- The argument `url[strings.LastIndex(url, "/")+1:]` that `downloadFile` passes to
`os.Create`. -/
def downloadFile.createName (url : String) : Option String :=
  (goSliceFrom url.toList (LastIndex url.toList '/' + 1)).map String.mk

/-! ## Concrete sessions used as test inputs -/

/-- The table columns set up by `renderTable`. -/
def assetColumns : List table.Column :=
  [{ Title := "Asset Name", Width := 50 }, { Title := "Size", Width := 20 }]

/-- A session over a release without assets, as start-up builds it from an empty record. -/
def emptySession : model :=
  { table := table.New assetColumns [] true, rlz := {} }

/-- A release with two assets. -/
def twoAssetRelease : Release :=
  { TagName := "v1.0.0",
    Assets :=
      [{ Name := "a.zip", Size := 100, BrowserDownloadURL := "https://example.com/dl/a.zip" },
       { Name := "b.tar", Size := 2048, BrowserDownloadURL := "https://example.com/dl/b.tar" }] }

/-- A focused session over `twoAssetRelease`, cursor on the first row. -/
def twoAssetSession : model :=
  { table := table.New assetColumns [["a.zip", "100 B"], ["b.tar", "2 kB"]] true,
    rlz := twoAssetRelease }

/-- A client on which every request fails and leaves the record empty. -/
def emptyGet : RESTClient := fun _ _ => { err := some "HTTP 404", response := {} }

/-- A client that answers every request with `twoAssetRelease`. -/
def steadyGet : RESTClient := fun _ _ => { err := none, response := twoAssetRelease }

/-- A client that answers the first request with a one-asset release and fails on every
later request, leaving the record empty. -/
def flakyGet : RESTClient := fun n _ =>
  if n = 0 then
    { err := none,
      response :=
        { TagName := "v1.0.0",
          Assets :=
            [{ Name := "a.zip", Size := 0,
               BrowserDownloadURL := "https://example.com/dl/a.zip" }] } }
  else { err := some "HTTP 502", response := {} }

/-- A boundary whose client is always built and behaves like `emptyGet`. -/
def emptyClient : ClientFactory := fun _ => Except.ok emptyGet

/-- A boundary whose client is always built and behaves like `steadyGet`. -/
def steadyClient : ClientFactory := fun _ => Except.ok steadyGet

/-- A boundary whose client is always built and behaves like `flakyGet`. -/
def flakyClient : ClientFactory := fun _ => Except.ok flakyGet

/-- A boundary on which `api.DefaultRESTClient()` always fails. -/
def noClient : ClientFactory := fun _ => Except.error "authentication token not found"

/-! ## Rounding lemmas -/

theorem roundHalfEven_intCast (n : ℤ) : roundHalfEven (n : ℚ) = n := by
  simp [roundHalfEven]

theorem floor_le_roundHalfEven (q : ℚ) : ⌊q⌋ ≤ roundHalfEven q := by
  unfold roundHalfEven
  simp only
  split_ifs <;> omega

theorem roundHalfEven_le_floor_succ (q : ℚ) : roundHalfEven q ≤ ⌊q⌋ + 1 := by
  unfold roundHalfEven
  simp only
  split_ifs <;> omega

theorem roundHalfEven_mono {x y : ℚ} (h : x ≤ y) : roundHalfEven x ≤ roundHalfEven y := by
  have hf : ⌊x⌋ ≤ ⌊y⌋ := Int.floor_mono h
  rcases hf.lt_or_eq with hlt | heq
  · calc roundHalfEven x ≤ ⌊x⌋ + 1 := roundHalfEven_le_floor_succ x
      _ ≤ ⌊y⌋ := hlt
      _ ≤ roundHalfEven y := floor_le_roundHalfEven y
  · unfold roundHalfEven
    simp only
    rw [heq]
    split_ifs <;> first | omega | linarith

theorem roundHalfEven_nonneg {q : ℚ} (h : 0 ≤ q) : 0 ≤ roundHalfEven q := by
  have h0 : roundHalfEven (0 : ℚ) = 0 := by simpa using roundHalfEven_intCast 0
  have := roundHalfEven_mono h
  rwa [h0] at this

theorem roundHalfEven_nonpos {q : ℚ} (h : q ≤ 0) : roundHalfEven q ≤ 0 := by
  have h0 : roundHalfEven (0 : ℚ) = 0 := by simpa using roundHalfEven_intCast 0
  have := roundHalfEven_mono h
  rwa [h0] at this

theorem f64Exp_ge (q : ℚ) : -1022 ≤ f64Exp q := le_max_right _ _

theorem f64Ulp_pos (q : ℚ) : 0 < f64Ulp q := by
  unfold f64Ulp
  positivity

theorem f64Round_zero : f64Round 0 = 0 := by
  simp [f64Round, roundHalfEven]

theorem f64Round_nonneg {q : ℚ} (h : 0 ≤ q) : 0 ≤ f64Round q := by
  unfold f64Round
  have h1 : 0 ≤ q / f64Ulp q := div_nonneg h (f64Ulp_pos q).le
  have h2 := roundHalfEven_nonneg h1
  have h3 : (0 : ℚ) ≤ (roundHalfEven (q / f64Ulp q) : ℚ) := by exact_mod_cast h2
  exact mul_nonneg h3 (f64Ulp_pos q).le

theorem f64Round_nonpos {q : ℚ} (h : q ≤ 0) : f64Round q ≤ 0 := by
  unfold f64Round
  have h1 : q / f64Ulp q ≤ 0 := div_nonpos_of_nonpos_of_nonneg h (f64Ulp_pos q).le
  have h2 := roundHalfEven_nonpos h1
  have h3 : (roundHalfEven (q / f64Ulp q) : ℚ) ≤ 0 := by exact_mod_cast h2
  exact mul_nonpos_of_nonpos_of_nonneg h3 (f64Ulp_pos q).le

theorem log_two_eq {q : ℚ} {e : ℤ} (h1 : (2 : ℚ) ^ e ≤ q) (h2 : q < (2 : ℚ) ^ (e + 1)) :
    Int.log 2 q = e := by
  have hq : 0 < q := lt_of_lt_of_le (by positivity) h1
  have a : e ≤ Int.log 2 q := by
    rw [← Int.zpow_le_iff_le_log (by norm_num) hq]
    simpa using h1
  have b : Int.log 2 q < e + 1 := by
    rw [← Int.lt_zpow_iff_log_lt (by norm_num) hq]
    simpa using h2
  omega

theorem two_zpow_log_le {q : ℚ} (hq : 0 < q) : (2 : ℚ) ^ Int.log 2 q ≤ q := by
  simpa using Int.zpow_log_le_self (b := 2) (by norm_num) hq

theorem lt_two_zpow_log_succ (q : ℚ) : q < (2 : ℚ) ^ (Int.log 2 q + 1) := by
  simpa using Int.lt_zpow_succ_log_self (b := 2) (by norm_num) q

/-- A value whose quotient by its own spacing is an integer is left alone by rounding. -/
theorem f64Round_of_int {q : ℚ} {n : ℤ} (h : q / f64Ulp q = n) : f64Round q = q := by
  unfold f64Round
  rw [h, roundHalfEven_intCast, ← h]
  exact div_mul_cancel₀ q (f64Ulp_pos q).ne'

/-- Every `m * 2^e` with a 53-bit `m` and `e ≥ -1074` is a `float64` value. -/
theorem f64Round_mantissa (m : ℕ) (e : ℤ) (hm : m < 2 ^ 53) (he : -1074 ≤ e) :
    f64Round ((m : ℚ) * 2 ^ e) = (m : ℚ) * 2 ^ e := by
  rcases Nat.eq_zero_or_pos m with rfl | hpos
  · simp [f64Round_zero]
  have hL : Nat.log 2 m < 53 := Nat.log_lt_of_lt_pow hpos.ne' hm
  have hlo : (2 : ℚ) ^ ((Nat.log 2 m : ℤ) + e) ≤ (m : ℚ) * 2 ^ e := by
    rw [zpow_add₀ (by norm_num)]
    apply mul_le_mul_of_nonneg_right _ (by positivity)
    have := Nat.pow_log_le_self 2 hpos.ne'
    rw [zpow_natCast]
    exact_mod_cast this
  have hhi : (m : ℚ) * 2 ^ e < (2 : ℚ) ^ ((Nat.log 2 m : ℤ) + e + 1) := by
    rw [show (Nat.log 2 m : ℤ) + e + 1 = ((Nat.log 2 m + 1 : ℕ) : ℤ) + e by push_cast; ring,
      zpow_add₀ (by norm_num)]
    apply mul_lt_mul_of_pos_right _ (by positivity)
    have := Nat.lt_pow_succ_log_self (b := 2) (by norm_num) m
    rw [zpow_natCast]
    exact_mod_cast this
  have hpos' : (0 : ℚ) < (m : ℚ) * 2 ^ e := by positivity
  have hlog : Int.log 2 |(m : ℚ) * 2 ^ e| = (Nat.log 2 m : ℤ) + e := by
    rw [abs_of_pos hpos']
    exact log_two_eq hlo hhi
  obtain ⟨d, hd⟩ : ∃ d : ℕ, (d : ℤ) = e - (f64Exp ((m : ℚ) * 2 ^ e) - 52) := by
    refine ⟨(e - (f64Exp ((m : ℚ) * 2 ^ e) - 52)).toNat, Int.toNat_of_nonneg ?_⟩
    unfold f64Exp
    rw [hlog]
    rcases max_cases ((Nat.log 2 m : ℤ) + e) (-1022) with ⟨h, _⟩ | ⟨h, _⟩ <;> rw [h] <;> omega
  apply f64Round_of_int (n := ((m * 2 ^ d : ℕ) : ℤ))
  unfold f64Ulp
  rw [mul_div_assoc, ← zpow_sub₀ (by norm_num), ← hd]
  push_cast
  rw [zpow_natCast]

theorem f64Round_natCast (n : ℕ) (h : n < 2 ^ 53) : f64Round (n : ℚ) = n := by
  simpa using f64Round_mantissa n 0 h (by norm_num)

theorem f64Round_two_zpow (e : ℤ) (he : -1074 ≤ e) : f64Round ((2 : ℚ) ^ e) = 2 ^ e := by
  simpa using f64Round_mantissa 1 e (by norm_num) he

theorem pow53_mul_ulp (e : ℤ) : (2 : ℚ) ^ (53 : ℕ) * 2 ^ (e - 52) = 2 ^ (e + 1) := by
  rw [← zpow_natCast, ← zpow_add₀ (by norm_num)]
  congr 1
  push_cast
  ring

theorem pow52_mul_ulp (e : ℤ) : (2 : ℚ) ^ (52 : ℕ) * 2 ^ (e - 52) = 2 ^ e := by
  rw [← zpow_natCast, ← zpow_add₀ (by norm_num)]
  congr 1
  push_cast
  ring

/-- The rounded mantissa of a positive value is at most `2^53`. -/
theorem mantissa_le {x : ℚ} (hx : 0 < x) : roundHalfEven (x / f64Ulp x) ≤ 2 ^ 53 := by
  have h1 : x < (2 : ℚ) ^ (f64Exp x + 1) := by
    have := lt_two_zpow_log_succ x
    refine lt_of_lt_of_le this (zpow_le_zpow_right₀ (by norm_num) ?_)
    unfold f64Exp
    rw [abs_of_pos hx]
    have := le_max_left (Int.log 2 x) (-1022)
    omega
  have h2 : x / f64Ulp x ≤ ((2 ^ 53 : ℤ) : ℚ) := by
    rw [div_le_iff₀ (f64Ulp_pos x)]
    unfold f64Ulp
    rw [show (((2 ^ 53 : ℤ)) : ℚ) = (2 : ℚ) ^ (53 : ℕ) by norm_num, pow53_mul_ulp]
    exact h1.le
  have := roundHalfEven_mono h2
  rwa [roundHalfEven_intCast] at this

/-- In the normal range the rounded mantissa is at least `2^52`. -/
theorem mantissa_ge {x : ℚ} (hx : 0 < x) (hn : -1022 ≤ Int.log 2 x) :
    2 ^ 52 ≤ roundHalfEven (x / f64Ulp x) := by
  have hE : f64Exp x = Int.log 2 x := by
    unfold f64Exp
    rw [abs_of_pos hx]
    exact max_eq_left hn
  have h1 : (2 : ℚ) ^ (f64Exp x) ≤ x := by
    rw [hE]
    exact two_zpow_log_le hx
  have h2 : ((2 ^ 52 : ℤ) : ℚ) ≤ x / f64Ulp x := by
    rw [le_div_iff₀ (f64Ulp_pos x)]
    unfold f64Ulp
    rw [show (((2 ^ 52 : ℤ)) : ℚ) = (2 : ℚ) ^ (52 : ℕ) by norm_num, pow52_mul_ulp]
    exact h1
  have := roundHalfEven_mono h2
  rwa [roundHalfEven_intCast] at this

theorem f64Round_le_binade {x : ℚ} (hx : 0 < x) : f64Round x ≤ (2 : ℚ) ^ (f64Exp x + 1) := by
  have h := mantissa_le hx
  have h' : (roundHalfEven (x / f64Ulp x) : ℚ) ≤ 2 ^ 53 := by exact_mod_cast h
  calc f64Round x = (roundHalfEven (x / f64Ulp x) : ℚ) * f64Ulp x := rfl
    _ ≤ 2 ^ 53 * f64Ulp x := mul_le_mul_of_nonneg_right h' (f64Ulp_pos x).le
    _ = (2 : ℚ) ^ (f64Exp x + 1) := pow53_mul_ulp _

theorem binade_le_f64Round {x : ℚ} (hx : 0 < x) (hn : -1022 ≤ Int.log 2 x) :
    (2 : ℚ) ^ (f64Exp x) ≤ f64Round x := by
  have h := mantissa_ge hx hn
  have h' : (2 : ℚ) ^ 52 ≤ (roundHalfEven (x / f64Ulp x) : ℚ) := by exact_mod_cast h
  calc (2 : ℚ) ^ (f64Exp x) = 2 ^ 52 * f64Ulp x := (pow52_mul_ulp _).symm
    _ ≤ (roundHalfEven (x / f64Ulp x) : ℚ) * f64Ulp x :=
        mul_le_mul_of_nonneg_right h' (f64Ulp_pos x).le
    _ = f64Round x := rfl

/-- Rounding to `float64` is monotone on the non-negative rationals. -/
theorem f64Round_mono {x y : ℚ} (hx : 0 ≤ x) (h : x ≤ y) : f64Round x ≤ f64Round y := by
  rcases hx.eq_or_lt with rfl | hx0
  · rw [f64Round_zero]
    exact f64Round_nonneg h
  have hy0 : 0 < y := lt_of_lt_of_le hx0 h
  have hlog : Int.log 2 x ≤ Int.log 2 y := Int.log_mono_right hx0 h
  have hEx : f64Exp x = max (Int.log 2 x) (-1022) := by
    unfold f64Exp
    rw [abs_of_pos hx0]
  have hEy : f64Exp y = max (Int.log 2 y) (-1022) := by
    unfold f64Exp
    rw [abs_of_pos hy0]
  have hE : f64Exp x ≤ f64Exp y := by
    rw [hEx, hEy]
    exact max_le_max hlog le_rfl
  rcases hE.eq_or_lt with heq | hlt
  · have hu : f64Ulp x = f64Ulp y := by
      unfold f64Ulp
      rw [heq]
    unfold f64Round
    rw [hu]
    apply mul_le_mul_of_nonneg_right _ (f64Ulp_pos y).le
    have : x / f64Ulp y ≤ y / f64Ulp y := div_le_div_of_nonneg_right h (f64Ulp_pos y).le
    exact_mod_cast roundHalfEven_mono this
  · have hn : -1022 ≤ Int.log 2 y := by
      have := f64Exp_ge x
      rcases max_cases (Int.log 2 y) (-1022) with ⟨h1, _⟩ | ⟨h1, _⟩ <;> omega
    calc f64Round x ≤ (2 : ℚ) ^ (f64Exp x + 1) := f64Round_le_binade hx0
      _ ≤ (2 : ℚ) ^ (f64Exp y) := zpow_le_zpow_right₀ (by norm_num) (by omega)
      _ ≤ f64Round y := binade_le_f64Round hy0 hn

/-- Rounding a rounded non-negative value changes nothing. -/
theorem f64Round_idem {x : ℚ} (hx : 0 ≤ x) : f64Round (f64Round x) = f64Round x := by
  rcases hx.eq_or_lt with rfl | hx0
  · rw [f64Round_zero, f64Round_zero]
  have hle := mantissa_le hx0
  have hnn : 0 ≤ roundHalfEven (x / f64Ulp x) :=
    roundHalfEven_nonneg (div_nonneg hx (f64Ulp_pos x).le)
  have hE := f64Exp_ge x
  obtain ⟨n, hn⟩ : ∃ n : ℕ, roundHalfEven (x / f64Ulp x) = (n : ℤ) :=
    ⟨_, (Int.toNat_of_nonneg hnn).symm⟩
  have hval : f64Round x = (n : ℚ) * 2 ^ (f64Exp x - 52) := by
    unfold f64Round
    rw [hn]
    rfl
  rw [hval]
  rcases (show n ≤ 2 ^ 53 by rw [hn] at hle; exact_mod_cast hle).eq_or_lt with h53 | hlt
  · have : (n : ℚ) * 2 ^ (f64Exp x - 52) = ((1 : ℕ) : ℚ) * 2 ^ (f64Exp x + 1) := by
      rw [h53, Nat.cast_pow, Nat.cast_ofNat, Nat.cast_one, one_mul]
      exact pow53_mul_ulp _
    rw [this]
    exact f64Round_mantissa 1 _ (by norm_num) (by omega)
  · exact f64Round_mantissa n _ hlt (by omega)

/-- A `float64` value in the binade `[2^p, 2^(p+1))` is a multiple of `2^(p-52)`. -/
theorem isF64_multiple {s : ℚ} {p : ℤ} (hs : IsF64 s) (hlo : (2 : ℚ) ^ p ≤ s)
    (hhi : s < (2 : ℚ) ^ (p + 1)) (hp : -1022 ≤ p) :
    ∃ n : ℕ, s = (n : ℚ) * 2 ^ (p - 52) ∧ n < 2 ^ 53 := by
  have hs0 : 0 < s := lt_of_lt_of_le (by positivity) hlo
  have hE : f64Exp s = p := by
    unfold f64Exp
    rw [abs_of_pos hs0, log_two_eq hlo hhi]
    exact max_eq_left hp
  have hnn : 0 ≤ roundHalfEven (s / f64Ulp s) :=
    roundHalfEven_nonneg (div_nonneg hs0.le (f64Ulp_pos s).le)
  obtain ⟨n, hn⟩ : ∃ n : ℕ, roundHalfEven (s / f64Ulp s) = (n : ℤ) :=
    ⟨_, (Int.toNat_of_nonneg hnn).symm⟩
  have hval : s = (n : ℚ) * 2 ^ (p - 52) := by
    have h1 := hs.1
    unfold f64Round at h1
    rw [hn] at h1
    unfold f64Ulp at h1
    rw [hE] at h1
    rw [← h1]
    rfl
  refine ⟨n, hval, ?_⟩
  have h2 : (n : ℚ) * 2 ^ (p - 52) < 2 ^ 53 * 2 ^ (p - 52) := by
    rw [← hval]
    exact lt_of_lt_of_le hhi (le_of_eq (pow53_mul_ulp p).symm)
  have h3 : (n : ℚ) < 2 ^ 53 := lt_of_mul_lt_mul_right h2 (by positivity)
  exact_mod_cast h3

/-- Dividing a `float64` value `s ≥ 1024` by 1024 is exact. -/
theorem f64Div_1024_exact {s : ℚ} (hs : IsF64 s) (h : 1024 ≤ s) : f64Div s 1024 = s / 1024 := by
  have hs0 : 0 < s := lt_of_lt_of_le (by norm_num) h
  have hlo := two_zpow_log_le hs0
  have hhi := lt_two_zpow_log_succ s
  have hp : 10 ≤ Int.log 2 s := by
    rw [← Int.zpow_le_iff_le_log (by norm_num) hs0]
    norm_num
    exact h
  obtain ⟨n, hn, hn53⟩ := isF64_multiple hs hlo hhi (by omega)
  have : s / 1024 = (n : ℚ) * 2 ^ (Int.log 2 s - 52 - 10) := by
    rw [zpow_sub₀ (by norm_num) (Int.log 2 s - 52) 10, ← mul_div_assoc, ← hn]
    norm_num
  unfold f64Div
  rw [this]
  exact f64Round_mantissa n _ hn53 (by omega)

/-- Below a threshold `N * 2^(p-52)` of the binade `[2^p, 2^(p+1))`, the largest `float64`
value is `(N - 1) * 2^(p-52)`. -/
theorem isF64_le_pred {s : ℚ} (p : ℤ) (N : ℕ) (hs : IsF64 s)
    (hlt : s < (N : ℚ) * 2 ^ (p - 52)) (hN1 : 2 ^ 52 < N) (hN2 : N ≤ 2 ^ 53)
    (hp : -1022 ≤ p) : s ≤ ((N - 1 : ℕ) : ℚ) * 2 ^ (p - 52) := by
  have hu : (0 : ℚ) < 2 ^ (p - 52) := by positivity
  rcases lt_or_le s ((2 : ℚ) ^ p) with hsmall | hbig
  · refine le_trans hsmall.le ?_
    rw [← pow52_mul_ulp p]
    apply mul_le_mul_of_nonneg_right _ hu.le
    have : 2 ^ 52 ≤ N - 1 := by omega
    exact_mod_cast this
  · have hhi : s < (2 : ℚ) ^ (p + 1) := by
      refine lt_of_lt_of_le hlt ?_
      rw [← pow53_mul_ulp p]
      apply mul_le_mul_of_nonneg_right _ hu.le
      exact_mod_cast hN2
    obtain ⟨n, hn, -⟩ := isF64_multiple hs hbig hhi hp
    rw [hn] at hlt ⊢
    have h1 : (n : ℚ) < N := lt_of_mul_lt_mul_right hlt hu.le
    have h2 : n < N := by exact_mod_cast h1
    apply mul_le_mul_of_nonneg_right _ hu.le
    have : n ≤ N - 1 := by omega
    exact_mod_cast this

/-- One division by 1000 of a `float64` value below `N * 2^(p-52)` stays strictly below the
quotient threshold `M * 2^(p-62)`, where `1024 * N = 1000 * M`. -/
theorem f64Div_1000_lt {s : ℚ} (p : ℤ) (N M : ℕ) (hs : IsF64 s) (h0 : 0 ≤ s)
    (hlt : s < (N : ℚ) * 2 ^ (p - 52)) (hN1 : 2 ^ 52 < N) (hN2 : N ≤ 2 ^ 53)
    (hM : N * 1024 = M * 1000) (hM2 : M ≤ 2 ^ 53) (hp : -1012 ≤ p) :
    f64Div s 1000 < (M : ℚ) * 2 ^ (p - 62) := by
  have hpred := isF64_le_pred p N hs hlt hN1 hN2 (by omega)
  have hM1 : 1 ≤ M := by omega
  have hu : (0 : ℚ) < 2 ^ (p - 62) := by positivity
  have hsplit : (2 : ℚ) ^ (p - 52) = 1024 * 2 ^ (p - 62) := by
    rw [show p - 52 = 10 + (p - 62) by ring, zpow_add₀ (by norm_num)]
    norm_num
  have hMq : (N : ℚ) * 1024 = (M : ℚ) * 1000 := by exact_mod_cast hM
  have hN1q : (1 : ℚ) ≤ N := by
    have : 1 ≤ N := by omega
    exact_mod_cast this
  have hq : s / 1000 ≤ ((M - 1 : ℕ) : ℚ) * 2 ^ (p - 62) := by
    rw [div_le_iff₀ (by norm_num)]
    refine le_trans hpred ?_
    rw [hsplit, Nat.cast_sub (by omega), Nat.cast_sub hM1]
    push_cast
    have : ((N : ℚ) - 1) * 1024 ≤ ((M : ℚ) - 1) * 1000 := by linarith
    nlinarith
  have hr := f64Round_mono (div_nonneg h0 (by norm_num)) hq
  rw [f64Round_mantissa (M - 1) (p - 62) (by omega) (by omega)] at hr
  refine lt_of_le_of_lt hr ?_
  apply mul_lt_mul_of_pos_right _ hu
  have : M - 1 < M := by omega
  exact_mod_cast this

theorem isF64_f64Div {s b : ℚ} (hb : 1 ≤ b) (hs : IsF64 s) (h0 : 0 ≤ s) :
    IsF64 (f64Div s b) := by
  have hb0 : 0 < b := lt_of_lt_of_le one_pos hb
  have hq0 : 0 ≤ s / b := div_nonneg h0 hb0.le
  refine ⟨f64Round_idem hq0, ?_⟩
  have h1 : f64Div s b ≤ s := by
    have := f64Round_mono hq0 (div_le_self h0 hb)
    rwa [hs.1] at this
  have h2 : 0 ≤ f64Div s b := f64Round_nonneg hq0
  rw [abs_of_nonneg h2]
  have := hs.2
  rw [abs_of_nonneg h0] at this
  exact lt_of_le_of_lt h1 this

theorem goodBase_1024 : GoodBase 1024 where
  one_le := by norm_num
  lower := by
    intro j _ s hs
    have h0 : (0 : ℚ) ≤ 1024 ^ (j + 1) / 1024 := by positivity
    have := f64Round_mono h0 (div_le_div_of_nonneg_right hs (by norm_num : (0 : ℚ) ≤ 1024))
    have e : (1024 : ℚ) ^ (j + 1) / 1024 = 2 ^ ((10 * j : ℕ) : ℤ) := by
      rw [pow_succ, mul_div_assoc, div_self (by norm_num), mul_one, zpow_natCast, pow_mul]
      norm_num
    rw [e, f64Round_two_zpow _ (by omega), ← e] at this
    rw [pow_succ, mul_div_assoc, div_self (by norm_num), mul_one] at this
    exact this
  upper := by
    intro j _ s hs hb hlt
    rw [f64Div_1024_exact hs hb, div_lt_iff₀ (by norm_num)]
    calc s < 1024 ^ (j + 2) := hlt
      _ = 1024 ^ (j + 1) * 1024 := by ring

theorem goodBase_1000 : GoodBase 1000 where
  one_le := by norm_num
  lower := by
    intro j hj s hs
    have h0 : (0 : ℚ) ≤ 1000 ^ (j + 1) / 1000 := by positivity
    have := f64Round_mono h0 (div_le_div_of_nonneg_right hs (by norm_num : (0 : ℚ) ≤ 1000))
    have e : (1000 : ℚ) ^ (j + 1) / 1000 = ((5 ^ (3 * j) : ℕ) : ℚ) * 2 ^ ((3 * j : ℕ) : ℤ) := by
      rw [pow_succ, mul_div_assoc, div_self (by norm_num), mul_one, zpow_natCast]
      push_cast
      rw [pow_mul, pow_mul, ← mul_pow]
      norm_num
    have hm : 5 ^ (3 * j) < 2 ^ 53 := by
      interval_cases j <;> norm_num
    rw [e, f64Round_mantissa _ _ hm (by omega), ← e] at this
    rw [pow_succ, mul_div_assoc, div_self (by norm_num), mul_one] at this
    exact this
  upper := by
    intro j hj s hs hb hlt
    have h0 : 0 ≤ s := le_trans (by norm_num) hb
    interval_cases j
    · have := f64Div_1000_lt 19 8589934592000000 8796093022208000 hs h0
        (lt_of_lt_of_le hlt (by norm_num)) (by norm_num) (by norm_num) (by norm_num)
        (by norm_num) (by norm_num)
      exact lt_of_lt_of_le this (by norm_num)
    · have := f64Div_1000_lt 29 8388608000000000 8589934592000000 hs h0
        (lt_of_lt_of_le hlt (by norm_num)) (by norm_num) (by norm_num) (by norm_num)
        (by norm_num) (by norm_num)
      exact lt_of_lt_of_le this (by norm_num)
    · have := f64Div_1000_lt 39 8192000000000000 8388608000000000 hs h0
        (lt_of_lt_of_le hlt (by norm_num)) (by norm_num) (by norm_num) (by norm_num)
        (by norm_num) (by norm_num)
      exact lt_of_lt_of_le this (by norm_num)
    · have := f64Div_1000_lt 49 8000000000000000 8192000000000000 hs h0
        (lt_of_lt_of_le hlt (by norm_num)) (by norm_num) (by norm_num) (by norm_num)
        (by norm_num) (by norm_num)
      exact lt_of_lt_of_le this (by norm_num)
    · have := f64Div_1000_lt 59 7812500000000000 8000000000000000 hs h0
        (lt_of_lt_of_le hlt (by norm_num)) (by norm_num) (by norm_num) (by norm_num)
        (by norm_num) (by norm_num)
      exact lt_of_lt_of_le this (by norm_num)
    · have := f64Div_1000_lt 69 7629394531250000 7812500000000000 hs h0
        (lt_of_lt_of_le hlt (by norm_num)) (by norm_num) (by norm_num) (by norm_num)
        (by norm_num) (by norm_num)
      exact lt_of_lt_of_le this (by norm_num)

/-! ## The unit loop -/

theorem sizeLoop_band {b : ℚ} (hb : GoodBase b) :
    ∀ (j i : ℕ) (s : ℚ), i + j ≤ 6 → IsF64 s → 0 ≤ s → (1 ≤ j → b ^ j ≤ s) →
      s < b ^ (j + 1) → sizeLoop 7 b s i = (divSteps b j s, i + j) := by
  intro j
  induction j with
  | zero =>
    intro i s _ _ _ _ hlt
    rw [sizeLoop, if_neg]
    · rfl
    · intro h
      have : s < b := by simpa using hlt
      exact absurd h.1 (not_le.mpr this)
  | succ j ih =>
    intro i s hij hs h0 hlo hlt
    have hlo' : b ^ (j + 1) ≤ s := hlo (by omega)
    have hbs : b ≤ s := le_trans (le_self_pow₀ hb.one_le (by omega)) hlo'
    rw [sizeLoop, if_pos ⟨hbs, by omega⟩]
    rw [ih (i + 1) (f64Div s b) (by omega) (isF64_f64Div hb.one_le hs h0)
      (f64Round_nonneg (div_nonneg h0 (le_trans zero_le_one hb.one_le)))
      (fun _ => hb.lower j (by omega) s hlo')
      (hb.upper j (by omega) s hs hbs hlt)]
    simp only [divSteps, Prod.mk.injEq, true_and]
    omega

theorem sizeLoop_index_le (b : ℚ) (n : ℕ) : ∀ (k i : ℕ) (s : ℚ), n - i = k → i ≤ n →
    (sizeLoop n b s i).2 ≤ n := by
  intro k
  induction k with
  | zero =>
    intro i s hk hi
    rw [sizeLoop, if_neg (by intro h; omega)]
    exact hi
  | succ k ih =>
    intro i s hk hi
    rw [sizeLoop]
    split_ifs with h
    · exact ih (i + 1) _ (by omega) (by omega)
    · exact hi

theorem le_sizeLoop_index (b : ℚ) (n : ℕ) : ∀ (k i : ℕ) (s : ℚ), n - i = k →
    i ≤ (sizeLoop n b s i).2 := by
  intro k
  induction k with
  | zero =>
    intro i s hk
    rw [sizeLoop, if_neg (by intro h; omega)]
  | succ k ih =>
    intro i s hk
    rw [sizeLoop]
    split_ifs with h
    · exact le_trans (Nat.le_succ i) (ih (i + 1) _ (by omega))
    · exact le_rfl

theorem sizeLoop_index_ge {b : ℚ} (hb : GoodBase b) :
    ∀ (j i : ℕ) (s : ℚ), i + j ≤ 7 → b ^ j ≤ s → i + j ≤ (sizeLoop 7 b s i).2 := by
  intro j
  induction j with
  | zero =>
    intro i s _ _
    exact le_sizeLoop_index b 7 _ i s rfl
  | succ j ih =>
    intro i s hij hlo
    have hbs : b ≤ s := le_trans (le_self_pow₀ hb.one_le (by omega)) hlo
    rw [sizeLoop, if_pos ⟨hbs, by omega⟩]
    have := ih (i + 1) (f64Div s b) (by omega) (hb.lower j (by omega) s hlo)
    omega

theorem exists_band {b s : ℚ} : ∀ J : ℕ, s < b ^ (J + 1) →
    ∃ j, j ≤ J ∧ (1 ≤ j → b ^ j ≤ s) ∧ s < b ^ (j + 1) := by
  intro J
  induction J with
  | zero => exact fun h => ⟨0, le_rfl, fun h1 => absurd h1 (by norm_num), h⟩
  | succ J ih =>
    intro h
    rcases lt_or_le s (b ^ (J + 1)) with hlt | hge
    · obtain ⟨j, hj, h1, h2⟩ := ih hlt
      exact ⟨j, by omega, h1, h2⟩
    · exact ⟨J + 1, le_rfl, fun _ => hge, h⟩

theorem roundHalfEven_of_lt_half {q : ℚ} {n : ℤ} (h1 : (n : ℚ) ≤ q) (h2 : q < n + 1 / 2) :
    roundHalfEven q = n := by
  have hf : ⌊q⌋ = n := Int.floor_eq_iff.mpr ⟨h1, by linarith⟩
  unfold roundHalfEven
  simp only [hf]
  rw [if_pos (by linarith)]

theorem roundHalfEven_of_gt_half {q : ℚ} {n : ℤ} (h1 : (n : ℚ) + 1 / 2 < q) (h2 : q < n + 1) :
    roundHalfEven q = n + 1 := by
  have hf : ⌊q⌋ = n := Int.floor_eq_iff.mpr ⟨by linarith, h2⟩
  unfold roundHalfEven
  simp only [hf]
  rw [if_neg (by linarith), if_pos (by linarith)]

theorem roundHalfEven_tie {q : ℚ} {n : ℤ} (h : q = n + 1 / 2) :
    roundHalfEven q = if n % 2 = 0 then n else n + 1 := by
  have hf : ⌊q⌋ = n := Int.floor_eq_iff.mpr ⟨by linarith, by linarith⟩
  unfold roundHalfEven
  simp only [hf]
  rw [if_neg (by linarith), if_neg (by linarith)]

theorem sizes_length : sizes.length = 7 := rfl

theorem isF64_mantissa (m : ℕ) (e : ℤ) (hm : m < 2 ^ 53) (he : -1074 ≤ e) (he2 : e ≤ 971) :
    IsF64 ((m : ℚ) * 2 ^ e) := by
  refine ⟨f64Round_mantissa m e hm he, ?_⟩
  rw [abs_of_nonneg (by positivity)]
  have h1 : (m : ℚ) < 2 ^ (53 : ℕ) := by exact_mod_cast hm
  have h2 : (2 : ℚ) ^ e ≤ 2 ^ (971 : ℤ) := zpow_le_zpow_right₀ (by norm_num) he2
  calc (m : ℚ) * 2 ^ e < 2 ^ (53 : ℕ) * 2 ^ e := mul_lt_mul_of_pos_right h1 (by positivity)
    _ ≤ 2 ^ (53 : ℕ) * 2 ^ (971 : ℤ) := mul_le_mul_of_nonneg_left h2 (by positivity)
    _ = 2 ^ 1024 := by
        rw [← zpow_natCast, ← zpow_add₀ (by norm_num)]
        norm_num

theorem isF64_natCast (n : ℕ) (h : n < 2 ^ 53) : IsF64 (n : ℚ) := by
  simpa using isF64_mantissa n 0 h (by norm_num) (by norm_num)

/-- Unfolding of `humanReadableSize` once the loop result is known. -/
theorem humanReadableSize_of_loop {s b v : ℚ} {i : ℕ} {u : String}
    (h : sizeLoop 7 b s 0 = (v, i)) (hu : sizes[i]? = some u) :
    humanReadableSize s b = some (fmtFixed v (if i > 1 then 2 else 0) ++ " " ++ u) := by
  unfold humanReadableSize
  simp only [sizes_length, h, hu]

theorem humanReadableSize_of_loop_none {s b v : ℚ} {i : ℕ}
    (h : sizeLoop 7 b s 0 = (v, i)) (hu : sizes[i]? = none) :
    humanReadableSize s b = none := by
  unfold humanReadableSize
  simp only [sizes_length, h, hu]

/-- Unfolding of `fmtFixed` on a non-negative value once the scaled rounding is known. -/
theorem fmtFixed_of_round {q : ℚ} {prec n : ℕ} (h0 : 0 ≤ q)
    (hn : roundHalfEven (q * 10 ^ prec) = (n : ℤ)) :
    fmtFixed q prec = toString (n / 10 ^ prec) ++
      (if prec = 0 then "" else "." ++ zeroPad prec (n % 10 ^ prec)) := by
  unfold fmtFixed
  simp only [abs_of_nonneg h0, hn, Int.toNat_ofNat, if_neg (not_lt.mpr h0)]
  rfl

theorem zeroPad_two_length : ∀ m : ℕ, m < 100 → (zeroPad 2 m).length = 2 := by
  decide

/-- With precision 0 the rendering of a non-negative value is the decimal numeral of the
nearest integer. -/
theorem fmtFixed_zero_places {q : ℚ} (h0 : 0 ≤ q) :
    fmtFixed q 0 = toString (roundHalfEven q).toNat := by
  obtain ⟨n, hn⟩ : ∃ n : ℕ, roundHalfEven q = (n : ℤ) :=
    ⟨_, (Int.toNat_of_nonneg (roundHalfEven_nonneg h0)).symm⟩
  rw [fmtFixed_of_round (n := n) h0 (by simpa using hn), hn]
  simp

/-- With precision 2 the rendering of a non-negative value is an integer part, a point and
exactly two digits. -/
theorem fmtFixed_two_places {q : ℚ} (h0 : 0 ≤ q) :
    ∃ n : ℕ, roundHalfEven (q * 10 ^ 2) = (n : ℤ) ∧
      fmtFixed q 2 = toString (n / 100) ++ "." ++ zeroPad 2 (n % 100) ∧
      (zeroPad 2 (n % 100)).length = 2 := by
  obtain ⟨n, hn⟩ : ∃ n : ℕ, roundHalfEven (q * 10 ^ 2) = (n : ℤ) :=
    ⟨_, (Int.toNat_of_nonneg (roundHalfEven_nonneg (by positivity))).symm⟩
  refine ⟨n, hn, ?_, zeroPad_two_length _ (Nat.mod_lt _ (by norm_num))⟩
  rw [fmtFixed_of_round (n := n) h0 hn]
  simp [String.append_assoc]

theorem goodBase_of {b : ℚ} (hb : b = 1000 ∨ b = 1024) : GoodBase b := by
  rcases hb with rfl | rfl
  · exact goodBase_1000
  · exact goodBase_1024

/-- Repeated division by 1024 of a `float64` value `s ≥ 1024^k` is exact. -/
theorem divSteps_1024 : ∀ (k : ℕ) (s : ℚ), IsF64 s → 0 ≤ s → (1 ≤ k → (1024 : ℚ) ^ k ≤ s) →
    divSteps 1024 k s = s / 1024 ^ k := by
  intro k
  induction k with
  | zero => intro s _ _ _; simp [divSteps]
  | succ k ih =>
    intro s hs h0 hlo
    have hlo' : (1024 : ℚ) ^ (k + 1) ≤ s := hlo (by omega)
    have hbs : (1024 : ℚ) ≤ s := le_trans (le_self_pow₀ (by norm_num) (by omega)) hlo'
    have hex := f64Div_1024_exact hs hbs
    have hf := isF64_f64Div (b := 1024) (by norm_num) hs h0
    rw [hex] at hf
    have hq : (1024 : ℚ) ^ k ≤ s / 1024 := by
      rw [le_div_iff₀ (by norm_num)]
      calc (1024 : ℚ) ^ k * 1024 = 1024 ^ (k + 1) := by ring
        _ ≤ s := hlo'
    simp only [divSteps]
    rw [hex, ih (s / 1024) hf (div_nonneg h0 (by norm_num)) (fun _ => hq), div_div, pow_succ]
    ring

theorem roundHalfEven_sub_le (q : ℚ) :
    q - 1 / 2 ≤ (roundHalfEven q : ℚ) ∧ (roundHalfEven q : ℚ) ≤ q + 1 / 2 := by
  have h1 := Int.floor_le q
  have h2 := Int.lt_floor_add_one q
  unfold roundHalfEven
  simp only
  split_ifs with a b c
  · constructor <;> linarith
  · push_cast
    constructor <;> linarith
  · constructor <;> linarith
  · push_cast
    constructor <;> linarith

/-- Rounding a value `x ≥ 1` to `float64` changes it by at most the factor `1 ± 2^-53`. -/
theorem f64Round_near {x : ℚ} (hx : 1 ≤ x) :
    x * (1 - 1 / 2 ^ 53) ≤ f64Round x ∧ f64Round x ≤ x * (1 + 1 / 2 ^ 53) := by
  have hx0 : 0 < x := lt_of_lt_of_le one_pos hx
  have hlog : 0 ≤ Int.log 2 x := by
    rw [← Int.zpow_le_iff_le_log (by norm_num) hx0]
    simpa using hx
  have hE : f64Exp x = Int.log 2 x := by
    unfold f64Exp
    rw [abs_of_pos hx0]
    exact max_eq_left (by omega)
  have hu : f64Ulp x * 2 ^ 52 ≤ x := by
    unfold f64Ulp
    rw [mul_comm, pow52_mul_ulp, hE]
    exact two_zpow_log_le hx0
  have hup := f64Ulp_pos x
  obtain ⟨hlo, hhi⟩ := roundHalfEven_sub_le (x / f64Ulp x)
  have e : x / f64Ulp x * f64Ulp x = x := div_mul_cancel₀ x hup.ne'
  constructor
  · calc x * (1 - 1 / 2 ^ 53) = x - x / 2 ^ 53 := by ring
      _ ≤ x - f64Ulp x * 2 ^ 52 / 2 ^ 53 := by
          have := div_le_div_of_nonneg_right hu (by positivity : (0 : ℚ) ≤ 2 ^ 53)
          linarith
      _ = (x / f64Ulp x - 1 / 2) * f64Ulp x := by
          rw [sub_mul, e]
          ring
      _ ≤ f64Round x := mul_le_mul_of_nonneg_right hlo hup.le
  · calc f64Round x ≤ (x / f64Ulp x + 1 / 2) * f64Ulp x :=
          mul_le_mul_of_nonneg_right hhi hup.le
      _ = x + f64Ulp x * 2 ^ 52 / 2 ^ 53 := by
          rw [add_mul, e]
          ring
      _ ≤ x + x / 2 ^ 53 := by
          have := div_le_div_of_nonneg_right hu (by positivity : (0 : ℚ) ≤ 2 ^ 53)
          linarith
      _ = x * (1 + 1 / 2 ^ 53) := by ring

/-- After `k ≤ 6` divisions the loop value is `s / b^k` up to `k` roundings. -/
theorem divSteps_near {b : ℚ} (hb : GoodBase b) : ∀ (k : ℕ) (s : ℚ), k ≤ 6 →
    (1 ≤ k → b ^ k ≤ s) →
    s / b ^ k * (1 - 1 / 2 ^ 53) ^ k ≤ divSteps b k s ∧
      divSteps b k s ≤ s / b ^ k * (1 + 1 / 2 ^ 53) ^ k := by
  intro k
  induction k with
  | zero => intro s _ _; simp [divSteps]
  | succ k ih =>
    intro s hk hlo
    have hb1 := hb.one_le
    have hb0 : 0 < b := lt_of_lt_of_le one_pos hb1
    have hlo' : b ^ (k + 1) ≤ s := hlo (by omega)
    have hq : b ^ k ≤ s / b := by
      rw [le_div_iff₀ hb0]
      calc b ^ k * b = b ^ (k + 1) := by ring
        _ ≤ s := hlo'
    have hq1 : 1 ≤ s / b := le_trans (one_le_pow₀ hb1) hq
    obtain ⟨n1, n2⟩ := f64Round_near hq1
    obtain ⟨i1, i2⟩ := ih (f64Div s b) (by omega) (fun _ => hb.lower k (by omega) s hlo')
    have hpk : (0 : ℚ) < b ^ k := by positivity
    have hm : (0 : ℚ) ≤ (1 - 1 / 2 ^ 53) ^ k := by
      apply pow_nonneg
      norm_num
    have hp : (0 : ℚ) ≤ (1 + 1 / 2 ^ 53) ^ k := by positivity
    have d1 : s / b * (1 - 1 / 2 ^ 53) / b ^ k ≤ f64Div s b / b ^ k :=
      div_le_div_of_nonneg_right n1 hpk.le
    have d2 : f64Div s b / b ^ k ≤ s / b * (1 + 1 / 2 ^ 53) / b ^ k :=
      div_le_div_of_nonneg_right n2 hpk.le
    simp only [divSteps]
    constructor
    · calc s / b ^ (k + 1) * (1 - 1 / 2 ^ 53) ^ (k + 1)
          = s / b * (1 - 1 / 2 ^ 53) / b ^ k * (1 - 1 / 2 ^ 53) ^ k := by
            rw [pow_succ, pow_succ]
            field_simp
            ring
        _ ≤ f64Div s b / b ^ k * (1 - 1 / 2 ^ 53) ^ k := mul_le_mul_of_nonneg_right d1 hm
        _ ≤ divSteps b k (f64Div s b) := i1
    · calc divSteps b k (f64Div s b) ≤ f64Div s b / b ^ k * (1 + 1 / 2 ^ 53) ^ k := i2
        _ ≤ s / b * (1 + 1 / 2 ^ 53) / b ^ k * (1 + 1 / 2 ^ 53) ^ k :=
            mul_le_mul_of_nonneg_right d2 hp
        _ = s / b ^ (k + 1) * (1 + 1 / 2 ^ 53) ^ (k + 1) := by
            rw [pow_succ, pow_succ]
            field_simp
            ring

/-- The least `k` with `s / b^k < b` names the band of `s`. -/
theorem band_of_least {b s : ℚ} {k : ℕ} (hb : 0 < b) (hk : s / b ^ k < b)
    (hmin : ∀ k', k' < k → b ≤ s / b ^ k') : (1 ≤ k → b ^ k ≤ s) ∧ s < b ^ (k + 1) := by
  constructor
  · intro h1
    have := hmin (k - 1) (by omega)
    rw [le_div_iff₀ (by positivity)] at this
    calc b ^ k = b * b ^ (k - 1) := by
          rw [← pow_succ', Nat.sub_add_cancel h1]
      _ ≤ s := this
  · rw [div_lt_iff₀ (by positivity)] at hk
    calc s < b * b ^ k := hk
      _ = b ^ (k + 1) := by ring

theorem sizes_getElem?_of_le {k : ℕ} (h : k ≤ 6) : ∃ u, sizes[k]? = some u := by
  interval_cases k <;> exact ⟨_, rfl⟩

/-- For `s ≥ b^7` the loop runs seven times and `sizes[7]` is out of range. -/
theorem humanReadableSize_none_of_ge {b s : ℚ} (hb : b = 1000 ∨ b = 1024) (h : b ^ 7 ≤ s) :
    unitIndex s b = 7 ∧ humanReadableSize s b = none := by
  have h1 := sizeLoop_index_ge (goodBase_of hb) 7 0 s (by norm_num) h
  have h2 := sizeLoop_index_le b 7 7 0 s rfl (by norm_num)
  have h3 : (sizeLoop 7 b s 0).2 = 7 := by omega
  refine ⟨h3, ?_⟩
  exact humanReadableSize_of_loop_none (v := (sizeLoop 7 b s 0).1) (i := (sizeLoop 7 b s 0).2)
    rfl (by rw [h3]; rfl)

/-- In a band below `b^7` the result is the rendering of the value after `j` divisions. -/
theorem humanReadableSize_band {b s : ℚ} {j : ℕ} (hb : b = 1000 ∨ b = 1024) (hj : j ≤ 6)
    (hs : IsF64 s) (h0 : 0 ≤ s) (hlo : 1 ≤ j → b ^ j ≤ s) (hhi : s < b ^ (j + 1)) :
    sizeLoop sizes.length b s 0 = (divSteps b j s, j) ∧
    ∃ u, sizes[j]? = some u ∧
      humanReadableSize s b =
        some (fmtFixed (divSteps b j s) (if j ≤ 1 then 0 else 2) ++ " " ++ u) := by
  have h := sizeLoop_band (goodBase_of hb) j 0 s (by omega) hs h0 hlo hhi
  rw [zero_add] at h
  refine ⟨h, ?_⟩
  obtain ⟨u, hu⟩ := sizes_getElem?_of_le hj
  refine ⟨u, hu, ?_⟩
  rw [humanReadableSize_of_loop h hu]
  have : (if j > 1 then 2 else 0) = (if j ≤ 1 then 0 else 2) := by
    split_ifs <;> first | rfl | omega
  rw [this]

theorem isF64_1536 : IsF64 (1536 : ℚ) := by simpa using isF64_natCast 1536 (by norm_num)

theorem humanReadableSize_zero : humanReadableSize 0 1024 = some "0 B" := by
  have h := sizeLoop_band goodBase_1024 0 0 0 (by norm_num) (isF64_natCast 0 (by norm_num))
    (by norm_num) (by norm_num) (by norm_num)
  rw [humanReadableSize_of_loop h (u := "B") rfl]
  rw [fmtFixed_of_round (n := 0) (by simp [divSteps])
    (by simpa [divSteps] using roundHalfEven_intCast 0)]
  rfl

theorem humanReadableSize_1536 : humanReadableSize 1536 1024 = some "2 kB" := by
  have h := sizeLoop_band goodBase_1024 1 0 1536 (by norm_num) isF64_1536
    (by norm_num) (by norm_num) (by norm_num)
  have hv : divSteps 1024 1 1536 = 3 / 2 := by
    rw [divSteps_1024 1 1536 isF64_1536 (by norm_num) (by norm_num)]
    norm_num
  rw [hv] at h
  rw [humanReadableSize_of_loop h (u := "kB") rfl]
  rw [fmtFixed_of_round (n := 2) (by norm_num)
    (by rw [roundHalfEven_tie (n := 1) (by norm_num)]; rfl)]
  rfl

theorem humanReadableSize_gib : humanReadableSize 1073741824 1024 = some "1.00 GB" := by
  have hs : IsF64 (1073741824 : ℚ) := by simpa using isF64_natCast 1073741824 (by norm_num)
  have h := sizeLoop_band goodBase_1024 3 0 1073741824 (by norm_num) hs
    (by norm_num) (by norm_num) (by norm_num)
  have hv : divSteps 1024 3 1073741824 = 1 := by
    rw [divSteps_1024 3 1073741824 hs (by norm_num) (by norm_num)]
    norm_num
  rw [hv] at h
  rw [humanReadableSize_of_loop h (u := "GB") rfl]
  rw [fmtFixed_of_round (n := 100) (by norm_num)
    (by simpa using roundHalfEven_intCast 100)]
  rfl

theorem humanReadableSize_100 : humanReadableSize (f64OfInt 100) 1024 = some "100 B" := by
  have e : f64OfInt 100 = 100 := by
    unfold f64OfInt
    simpa using f64Round_natCast 100 (by norm_num)
  have hs : IsF64 (100 : ℚ) := by simpa using isF64_natCast 100 (by norm_num)
  have h := sizeLoop_band goodBase_1024 0 0 100 (by norm_num) hs
    (by norm_num) (by norm_num) (by norm_num)
  rw [e, humanReadableSize_of_loop h (u := "B") rfl]
  rw [fmtFixed_of_round (n := 100) (by simp [divSteps])
    (by simpa [divSteps] using roundHalfEven_intCast 100)]
  rfl

theorem humanReadableSize_2048 : humanReadableSize (f64OfInt 2048) 1024 = some "2 kB" := by
  have e : f64OfInt 2048 = 2048 := by
    unfold f64OfInt
    simpa using f64Round_natCast 2048 (by norm_num)
  have hs : IsF64 (2048 : ℚ) := by simpa using isF64_natCast 2048 (by norm_num)
  have h := sizeLoop_band goodBase_1024 1 0 2048 (by norm_num) hs
    (by norm_num) (by norm_num) (by norm_num)
  have hv : divSteps 1024 1 2048 = 2 := by
    rw [divSteps_1024 1 2048 hs (by norm_num) (by norm_num)]
    norm_num
  rw [hv] at h
  rw [e, humanReadableSize_of_loop h (u := "kB") rfl]
  rw [fmtFixed_of_round (n := 2) (by norm_num)
    (by simpa using roundHalfEven_intCast 2)]
  rfl

/-- Evaluation of `f64Round` in the normal range once the binade and the rounded mantissa
are known. -/
theorem f64Round_of_binade {q : ℚ} {e n : ℤ} (h1 : (2 : ℚ) ^ e ≤ q) (h2 : q < (2 : ℚ) ^ (e + 1))
    (he : -1022 ≤ e) (hn : roundHalfEven (q / 2 ^ (e - 52)) = n) :
    f64Round q = (n : ℚ) * 2 ^ (e - 52) := by
  have hq : 0 < q := lt_of_lt_of_le (by positivity) h1
  have hE : f64Exp q = e := by
    unfold f64Exp
    rw [abs_of_pos hq, log_two_eq h1 h2]
    exact max_eq_left he
  unfold f64Round f64Ulp
  rw [hE, hn]

theorem isF64_904555e15 : IsF64 (904555000000000032768 : ℚ) := by
  have := isF64_mantissa 6901206970214844 17 (by norm_num) (by norm_num) (by norm_num)
  have e : ((6901206970214844 : ℕ) : ℚ) * 2 ^ (17 : ℤ) = 904555000000000032768 := by norm_num
  rwa [e] at this

/-- The six `float64` divisions by 1000 of `904555000000000032768`: the first and the last
one round. -/
theorem divSteps_904555e15 :
    divSteps 1000 6 904555000000000032768 = 7956549923703357 / 8796093022208 := by
  have e1 : f64Div 904555000000000032768 1000 = 904555000000000000 := by
    unfold f64Div
    rw [f64Round_of_binade (e := 59) (n := 7066835937500000) (by norm_num) (by norm_num)
      (by norm_num) (roundHalfEven_of_lt_half (by norm_num) (by norm_num))]
    norm_num
  have e2 : f64Div 904555000000000000 1000 = 904555000000000 := by
    unfold f64Div
    rw [show (904555000000000000 : ℚ) / 1000 = ((904555000000000 : ℕ) : ℚ) by norm_num]
    simpa using f64Round_natCast 904555000000000 (by norm_num)
  have e3 : f64Div 904555000000000 1000 = 904555000000 := by
    unfold f64Div
    rw [show (904555000000000 : ℚ) / 1000 = ((904555000000 : ℕ) : ℚ) by norm_num]
    simpa using f64Round_natCast 904555000000 (by norm_num)
  have e4 : f64Div 904555000000 1000 = 904555000 := by
    unfold f64Div
    rw [show (904555000000 : ℚ) / 1000 = ((904555000 : ℕ) : ℚ) by norm_num]
    simpa using f64Round_natCast 904555000 (by norm_num)
  have e5 : f64Div 904555000 1000 = 904555 := by
    unfold f64Div
    rw [show (904555000 : ℚ) / 1000 = ((904555 : ℕ) : ℚ) by norm_num]
    simpa using f64Round_natCast 904555 (by norm_num)
  have e6 : f64Div 904555 1000 = 7956549923703357 / 8796093022208 := by
    unfold f64Div
    rw [f64Round_of_binade (e := 9) (n := 7956549923703357) (by norm_num) (by norm_num)
      (by norm_num) (roundHalfEven_of_lt_half (by norm_num) (by norm_num))]
    norm_num
  simp only [divSteps]
  rw [e1, e2, e3, e4, e5, e6]

/-- A base-1000 evaluation in which the divisions round: the loop leaves the `float64` just
below 904.555, which `%.2f` shows as "904.55". -/
theorem humanReadableSize_904555e15 :
    humanReadableSize 904555000000000032768 1000 = some "904.55 EB" := by
  have h := sizeLoop_band goodBase_1000 6 0 904555000000000032768 (by norm_num)
    isF64_904555e15 (by norm_num) (by norm_num) (by norm_num)
  rw [divSteps_904555e15] at h
  rw [humanReadableSize_of_loop h (u := "EB") rfl]
  rw [fmtFixed_of_round (n := 90455) (by norm_num)
    (roundHalfEven_of_lt_half (by norm_num) (by norm_num))]
  rfl

/-- The exact quotient `904555000000000032768 / 1000^6` lies above 904.555 and renders as
"904.56". -/
theorem fmtFixed_exact_904555e15 :
    fmtFixed (904555000000000032768 / 1000 ^ 6) 2 = "904.56" := by
  rw [fmtFixed_of_round (n := 90456) (by norm_num)
    (by
      have := roundHalfEven_of_gt_half (q := 904555000000000032768 / 1000 ^ 6 * 10 ^ 2)
        (n := 90455) (by norm_num) (by norm_num)
      rw [this]
      norm_num)]
  rfl

/-! ## Checked properties of `humanReadableSize` -/

/-- C1 (evaluation at the failing input): `1024^7 = 2^70` is a `float64` value; on it the loop of
`humanReadableSize(s, 1024)` runs seven times, leaves `i = 7 = len(sizes)`, and the lookup
`sizes[7]` is out of range, so the call panics instead of answering in "EB". -/
theorem humanReadableSize_panics_at_ladder_end :
    IsF64 ((1024 : ℚ) ^ 7) ∧ unitIndex (1024 ^ 7) 1024 = 7 ∧ sizes[7]? = none ∧
      humanReadableSize (1024 ^ 7) 1024 = none := by
  have h := humanReadableSize_none_of_ge (b := 1024) (s := 1024 ^ 7) (Or.inr rfl) le_rfl
  refine ⟨?_, h.1, rfl, h.2⟩
  have := isF64_mantissa 1 70 (by norm_num) (by norm_num) (by norm_num)
  have e : ((1 : ℕ) : ℚ) * 2 ^ (70 : ℤ) = 1024 ^ 7 := by norm_num
  rwa [e] at this

/-- C2 (as stated, refuted): `humanReadableSize(1536, 1024)` is "2 kB", not "1.50 kB": after one
division the format is `%.0f`, and 1.5 rounds to the even neighbour 2. -/
theorem humanReadableSize_1536_not_decimal :
    humanReadableSize 1536 1024 = some "2 kB" ∧ humanReadableSize 1536 1024 ≠ some "1.50 kB" := by
  refine ⟨humanReadableSize_1536, ?_⟩
  rw [humanReadableSize_1536]
  decide

/-- C2 (amended): `humanReadableSize(0, 1024) = "0 B"`, `humanReadableSize(1536, 1024) = "2 kB"`
and `humanReadableSize(1073741824, 1024) = "1.00 GB"`. -/
theorem humanReadableSize_examples :
    humanReadableSize 0 1024 = some "0 B" ∧ humanReadableSize 1536 1024 = some "2 kB" ∧
      humanReadableSize 1073741824 1024 = some "1.00 GB" :=
  ⟨humanReadableSize_zero, humanReadableSize_1536, humanReadableSize_gib⟩

/-- C3 (as stated, refuted): `s = 904555000000000032768` is a `float64` value below `1000^7` whose
least `k` with `s / 1000^k < 1000` is 6; `humanReadableSize(s, 1000)` is "904.55 EB",
whereas the two-place rendering of `s / 1000^6` followed by the unit is "904.56 EB". -/
theorem humanReadableSize_rendering_not_exact_quotient :
    IsF64 (904555000000000032768 : ℚ) ∧ (0 : ℚ) ≤ 904555000000000032768 ∧
      (904555000000000032768 : ℚ) < 1000 ^ 7 ∧
      (904555000000000032768 : ℚ) / 1000 ^ 6 < 1000 ∧
      (∀ k', k' < 6 → (1000 : ℚ) ≤ 904555000000000032768 / 1000 ^ k') ∧
      sizes[6]? = some "EB" ∧
      humanReadableSize 904555000000000032768 1000 = some "904.55 EB" ∧
      fmtFixed (904555000000000032768 / 1000 ^ 6) 2 ++ " " ++ "EB" = "904.56 EB" ∧
      humanReadableSize 904555000000000032768 1000 ≠
        some (fmtFixed (904555000000000032768 / 1000 ^ 6) 2 ++ " " ++ "EB") := by
  have hmin : ∀ k', k' < 6 → (1000 : ℚ) ≤ 904555000000000032768 / 1000 ^ k' := by
    intro k' hk'
    interval_cases k' <;> norm_num
  refine ⟨isF64_904555e15, by norm_num, by norm_num, by norm_num, hmin, rfl,
    humanReadableSize_904555e15, ?_, ?_⟩
  · rw [fmtFixed_exact_904555e15]
    rfl
  · rw [humanReadableSize_904555e15, fmtFixed_exact_904555e15]
    decide

/-- C3 (amended): for `b ∈ {1000, 1024}` and a `float64` byte count `0 ≤ s < b^7`, let `k` be the
least number with `s / b^k < b`.  Then `k ≤ 6`, the loop takes exactly `k` division steps,
and `humanReadableSize(s, b)` is the fixed-point rendering of the `float64` value left by
`k` successive `float64` divisions of `s` by `b`, one space, and `sizes[k]`, with no
decimal places when `k ≤ 1` (the numeral of the nearest integer) and exactly two when
`k ≥ 2` (integer part, point, two digits).  That value is `s / b^k` itself for base 1024,
and lies within a factor `(1 ± 2^-53)^k` of `s / b^k` in general. -/
theorem humanReadableSize_rendering (b s : ℚ) (k : ℕ) (hb : b = 1000 ∨ b = 1024)
    (hs : IsF64 s) (h0 : 0 ≤ s) (hlt : s < b ^ 7) (hk : s / b ^ k < b)
    (hmin : ∀ k', k' < k → b ≤ s / b ^ k') :
    k ≤ 6 ∧ sizeLoop sizes.length b s 0 = (divSteps b k s, k) ∧
      (∃ u, sizes[k]? = some u ∧
        humanReadableSize s b =
          some (fmtFixed (divSteps b k s) (if k ≤ 1 then 0 else 2) ++ " " ++ u)) ∧
      (k ≤ 1 → fmtFixed (divSteps b k s) 0 = toString (roundHalfEven (divSteps b k s)).toNat) ∧
      (2 ≤ k → ∃ n : ℕ, roundHalfEven (divSteps b k s * 10 ^ 2) = (n : ℤ) ∧
        fmtFixed (divSteps b k s) 2 = toString (n / 100) ++ "." ++ zeroPad 2 (n % 100) ∧
        (zeroPad 2 (n % 100)).length = 2) ∧
      (b = 1024 → divSteps b k s = s / b ^ k) ∧
      s / b ^ k * (1 - 1 / 2 ^ 53) ^ k ≤ divSteps b k s ∧
      divSteps b k s ≤ s / b ^ k * (1 + 1 / 2 ^ 53) ^ k := by
  have hb0 : 0 < b := by rcases hb with rfl | rfl <;> norm_num
  have hk6 : k ≤ 6 := by
    by_contra hc
    have := hmin 6 (by omega)
    rw [le_div_iff₀ (by positivity)] at this
    have h7 : b ^ 7 ≤ s := by
      calc b ^ 7 = b * b ^ 6 := by ring
        _ ≤ s := this
    exact absurd hlt (not_lt.mpr h7)
  obtain ⟨hlo, hhi⟩ := band_of_least hb0 hk hmin
  obtain ⟨h1, h2⟩ := humanReadableSize_band hb hk6 hs h0 hlo hhi
  have hnear := divSteps_near (goodBase_of hb) k s hk6 hlo
  have hv0 : 0 ≤ divSteps b k s := by
    refine le_trans ?_ hnear.1
    have : (0 : ℚ) ≤ (1 - 1 / 2 ^ 53) ^ k := pow_nonneg (by norm_num) k
    positivity
  refine ⟨hk6, h1, h2, fun _ => fmtFixed_zero_places hv0, fun _ => fmtFixed_two_places hv0, ?_,
    hnear⟩
  intro h1024
  subst h1024
  exact divSteps_1024 k s hs h0 hlo

/-- C3 (amended, instance): in base 1000 the count 1015000 takes two division steps and is shown with two
decimal places in "MB". -/
theorem humanReadableSize_rendering_witness :
    (IsF64 (1015000 : ℚ) ∧ (0 : ℚ) ≤ 1015000 ∧ (1015000 : ℚ) < 1000 ^ 7 ∧
      (1015000 : ℚ) / 1000 ^ 2 < 1000 ∧ ∀ k', k' < 2 → (1000 : ℚ) ≤ 1015000 / 1000 ^ k') ∧
    (2 ≤ 6 ∧ sizeLoop sizes.length 1000 1015000 0 = (divSteps 1000 2 1015000, 2) ∧
      (∃ u, sizes[2]? = some u ∧
        humanReadableSize 1015000 1000 =
          some (fmtFixed (divSteps 1000 2 1015000) (if 2 ≤ 1 then 0 else 2) ++ " " ++ u)) ∧
      (2 ≤ 1 → fmtFixed (divSteps 1000 2 1015000) 0 =
        toString (roundHalfEven (divSteps 1000 2 1015000)).toNat) ∧
      (2 ≤ 2 → ∃ n : ℕ, roundHalfEven (divSteps 1000 2 1015000 * 10 ^ 2) = (n : ℤ) ∧
        fmtFixed (divSteps 1000 2 1015000) 2 =
          toString (n / 100) ++ "." ++ zeroPad 2 (n % 100) ∧
        (zeroPad 2 (n % 100)).length = 2) ∧
      ((1000 : ℚ) = 1024 → divSteps 1000 2 1015000 = 1015000 / 1000 ^ 2) ∧
      (1015000 : ℚ) / 1000 ^ 2 * (1 - 1 / 2 ^ 53) ^ 2 ≤ divSteps 1000 2 1015000 ∧
      divSteps 1000 2 1015000 ≤ (1015000 : ℚ) / 1000 ^ 2 * (1 + 1 / 2 ^ 53) ^ 2) := by
  have hs : IsF64 (1015000 : ℚ) := by simpa using isF64_natCast 1015000 (by norm_num)
  have hmin : ∀ k', k' < 2 → (1000 : ℚ) ≤ 1015000 / 1000 ^ k' := by
    intro k' hk'
    interval_cases k' <;> norm_num
  exact ⟨⟨hs, by norm_num, by norm_num, by norm_num, hmin⟩,
    humanReadableSize_rendering 1000 1015000 2 (Or.inl rfl) hs (by norm_num) (by norm_num)
      (by norm_num) hmin⟩

/-- The unit position of a `float64` value in band `j`. -/
theorem unitIndex_band {b s : ℚ} {j : ℕ} (hb : b = 1000 ∨ b = 1024) (hj : j ≤ 6)
    (hs : IsF64 s) (h0 : 0 ≤ s) (hlo : 1 ≤ j → b ^ j ≤ s) (hhi : s < b ^ (j + 1)) :
    unitIndex s b = j ∧ ∃ u v, sizes[j]? = some u ∧ humanReadableSize s b = some (v ++ " " ++ u) := by
  obtain ⟨h1, u, hu, h2⟩ := humanReadableSize_band hb hj hs h0 hlo hhi
  refine ⟨?_, u, _, hu, h2⟩
  unfold unitIndex
  rw [h1]

/-- C9: for `b ∈ {1000, 1024}` and `float64` byte counts `0 ≤ n ≤ m < b^7`, both calls return a
string ending in the unit at their loop position, and the position of the unit of
`humanReadableSize(n, b)` is at most that of `humanReadableSize(m, b)`. -/
theorem humanReadableSize_unit_monotone (b n m : ℚ) (hb : b = 1000 ∨ b = 1024)
    (hn : IsF64 n) (hm : IsF64 m) (h0 : 0 ≤ n) (hnm : n ≤ m) (hlt : m < b ^ 7) :
    unitIndex n b ≤ unitIndex m b ∧ unitIndex m b ≤ 6 ∧
      (∃ u v, sizes[unitIndex n b]? = some u ∧ humanReadableSize n b = some (v ++ " " ++ u)) ∧
      (∃ u v, sizes[unitIndex m b]? = some u ∧ humanReadableSize m b = some (v ++ " " ++ u)) := by
  have hb1 : 1 ≤ b := (goodBase_of hb).one_le
  obtain ⟨i, hi, hilo, hihi⟩ := exists_band (b := b) (s := n) 6 (lt_of_le_of_lt hnm hlt)
  obtain ⟨j, hj, hjlo, hjhi⟩ := exists_band (b := b) (s := m) 6 hlt
  obtain ⟨ei, hri⟩ := unitIndex_band hb hi hn h0 hilo hihi
  obtain ⟨ej, hrj⟩ := unitIndex_band hb hj hm (le_trans h0 hnm) hjlo hjhi
  have hij : i ≤ j := by
    by_contra hc
    have h1 : b ^ i ≤ n := hilo (by omega)
    have h2 : b ^ (j + 1) ≤ b ^ i := pow_le_pow_right₀ hb1 (by omega)
    exact absurd (lt_of_le_of_lt (le_trans h2 (le_trans h1 hnm)) hjhi) (lt_irrefl _)
  rw [ei, ej]
  exact ⟨hij, hj, hri, hrj⟩

/-- C9 (instance): 999 and 1000 in base 1000. -/
theorem humanReadableSize_unit_monotone_witness :
    (IsF64 (999 : ℚ) ∧ IsF64 (1000 : ℚ) ∧ (0 : ℚ) ≤ 999 ∧ (999 : ℚ) ≤ 1000 ∧
      (1000 : ℚ) < 1000 ^ 7) ∧
    (unitIndex 999 1000 ≤ unitIndex 1000 1000 ∧ unitIndex 1000 1000 ≤ 6 ∧
      (∃ u v, sizes[unitIndex 999 1000]? = some u ∧
        humanReadableSize 999 1000 = some (v ++ " " ++ u)) ∧
      (∃ u v, sizes[unitIndex 1000 1000]? = some u ∧
        humanReadableSize 1000 1000 = some (v ++ " " ++ u))) := by
  have h1 : IsF64 (999 : ℚ) := by simpa using isF64_natCast 999 (by norm_num)
  have h2 : IsF64 (1000 : ℚ) := by simpa using isF64_natCast 1000 (by norm_num)
  exact ⟨⟨h1, h2, by norm_num, by norm_num, by norm_num⟩,
    humanReadableSize_unit_monotone 1000 999 1000 (Or.inl rfl) h1 h2 (by norm_num) (by norm_num)
      (by norm_num)⟩

/-- The conversion `float64(n)` of a non-negative `int` is a `float64` value in `[0, 2^63]`. -/
theorem f64OfInt_range {n : ℤ} (h0 : 0 ≤ n) (hlt : n < 2 ^ 63) :
    IsF64 (f64OfInt n) ∧ 0 ≤ f64OfInt n ∧ f64OfInt n ≤ 2 ^ 63 := by
  have hq0 : (0 : ℚ) ≤ (n : ℚ) := by exact_mod_cast h0
  have hq1 : (n : ℚ) ≤ 2 ^ (63 : ℤ) := by
    have : (n : ℚ) < 2 ^ 63 := by exact_mod_cast hlt
    rw [zpow_ofNat]
    exact this.le
  have hle : f64OfInt n ≤ 2 ^ 63 := by
    have := f64Round_mono hq0 hq1
    rw [f64Round_two_zpow 63 (by norm_num), zpow_ofNat] at this
    exact this
  have hnn : 0 ≤ f64OfInt n := f64Round_nonneg hq0
  refine ⟨⟨f64Round_idem hq0, ?_⟩, hnn, hle⟩
  rw [abs_of_nonneg hnn]
  exact lt_of_le_of_lt hle (by norm_num)

theorem unitIndex_f64OfInt {n : ℤ} (h0 : 0 ≤ n) (hlt : n < 2 ^ 63) :
    unitIndex (f64OfInt n) 1024 ≤ 6 ∧
      (∃ u, sizes[unitIndex (f64OfInt n) 1024]? = some u) ∧
      (humanReadableSize (f64OfInt n) 1024).isSome := by
  obtain ⟨hs, hnn, hle⟩ := f64OfInt_range h0 hlt
  have h7 : f64OfInt n < (1024 : ℚ) ^ 7 := lt_of_le_of_lt hle (by norm_num)
  obtain ⟨j, hj, hlo, hhi⟩ := exists_band (b := 1024) (s := f64OfInt n) 6 h7
  obtain ⟨ej, u, v, hu, hr⟩ := unitIndex_band (Or.inr rfl) hj hs hnn hlo hhi
  rw [ej, hr]
  exact ⟨hj, ⟨u, hu⟩, rfl⟩

/-- C10: for every `int` size `0 ≤ n < 2^63`, converted with `float64(n)` and formatted in
base 1024, the loop stops with `i ≤ 6`, the lookup `sizes[i]` is in bounds and the
formatter returns a string. -/
theorem humanReadableSize_asset_size_in_bounds (n : ℤ) (h0 : 0 ≤ n) (hlt : n < 2 ^ 63) :
    unitIndex (f64OfInt n) 1024 ≤ 6 ∧
      (∃ u, sizes[unitIndex (f64OfInt n) 1024]? = some u) ∧
      (humanReadableSize (f64OfInt n) 1024).isSome :=
  unitIndex_f64OfInt h0 hlt

/-- C10 (instance): the largest `int`, `2^63 - 1`. -/
theorem humanReadableSize_asset_size_in_bounds_witness :
    ((0 : ℤ) ≤ 9223372036854775807 ∧ (9223372036854775807 : ℤ) < 2 ^ 63) ∧
    (unitIndex (f64OfInt 9223372036854775807) 1024 ≤ 6 ∧
      (∃ u, sizes[unitIndex (f64OfInt 9223372036854775807) 1024]? = some u) ∧
      (humanReadableSize (f64OfInt 9223372036854775807) 1024).isSome) :=
  ⟨⟨by norm_num, by norm_num⟩,
    humanReadableSize_asset_size_in_bounds 9223372036854775807 (by norm_num) (by norm_num)⟩

/-- Every `int` size gets a rendering: negative sizes stop the loop at once. -/
theorem humanReadableSize_int_some (n : ℤ) (hlt : n < 2 ^ 63) :
    ∃ str, humanReadableSize (f64OfInt n) 1024 = some str := by
  rcases le_or_lt 0 n with h0 | hneg
  · obtain ⟨-, -, h⟩ := unitIndex_f64OfInt h0 hlt
    exact Option.isSome_iff_exists.mp h
  · have hq : (n : ℚ) ≤ 0 := by exact_mod_cast hneg.le
    have hle : f64OfInt n ≤ 0 := f64Round_nonpos hq
    have hloop : sizeLoop 7 1024 (f64OfInt n) 0 = (f64OfInt n, 0) := by
      rw [sizeLoop, if_neg]
      intro h
      have : (1024 : ℚ) ≤ 0 := le_trans h.1 hle
      norm_num at this
    exact ⟨_, humanReadableSize_of_loop hloop (u := "B") rfl⟩

/-! ## The session state machine -/

theorem goIndex_nil {α : Type} (i : ℤ) : goIndex ([] : List α) i = none := by
  unfold goIndex
  split_ifs <;> rfl

theorem goIndex_natCast {α : Type} (xs : List α) (c : ℕ) (h : c < xs.length) :
    goIndex xs (c : ℤ) = some xs[c] := by
  unfold goIndex
  rw [if_pos (by omega), Int.toNat_ofNat, List.getElem?_eq_getElem h]

/-- On an empty asset list `Update` panics exactly on "enter" and "d". -/
theorem update_nil_assets (m : model) (msg : tea.Msg) (h : m.rlz.Assets = []) :
    model.Update m msg = none ↔
      msg = tea.Msg.KeyMsg "enter" ∨ msg = tea.Msg.KeyMsg "d" := by
  cases msg with
  | other => simp [model.Update]
  | KeyMsg k =>
    unfold model.Update
    simp only [h, goIndex_nil]
    by_cases h1 : k = "esc"
    · subst h1; simp
    by_cases h2 : k = "q" ∨ k = "ctrl+c"
    · rw [if_neg h1, if_pos h2]
      rcases h2 with rfl | rfl <;> simp
    by_cases h3 : k = "enter"
    · subst h3; simp
    by_cases h4 : k = "d"
    · subst h4; simp
    simp [h1, h2, h3, h4]

/-- What "d" does on a valid cursor: the download is started and the key is then handed to
the table, which treats it as "half page down" when focused. -/
theorem update_d (m : model) (c : ℕ) (hc : m.table.Cursor = (c : ℤ))
    (hlt : c < m.rlz.Assets.length) :
    model.Update m (tea.Msg.KeyMsg "d") =
      some { next := { m with table :=
                         if m.table.focus then m.table.MoveDown (Int.tdiv m.table.viewportHeight 2)
                         else m.table },
             cmd := tea.Cmd.nil,
             spawned := [m.rlz.Assets[c].BrowserDownloadURL] } := by
  unfold model.Update
  simp only [hc, goIndex_natCast _ c hlt, model.forward, table.Model.Update]
  cases hf : m.table.focus <;> simp

/-- Start-up over a failing fetch yields `emptySession`. -/
theorem main_emptyClient : (main emptyClient "cli/cli" "latest" {}).1 = some emptySession :=
  rfl

theorem buildRows_cons (a : Asset) (rest : List Asset) (sz : String)
    (h : humanReadableSize (f64OfInt a.Size) 1024 = some sz) :
    buildRows (a :: rest) = (buildRows rest).map fun rows => [a.Name, sz] :: rows := by
  rw [buildRows, h]

theorem buildRows_twoAssetRelease : buildRows twoAssetRelease.Assets =
    some [["a.zip", "100 B"], ["b.tar", "2 kB"]] := by
  have h1 := buildRows_cons
    { Name := "b.tar", Size := 2048, BrowserDownloadURL := "https://example.com/dl/b.tar" }
    [] "2 kB" humanReadableSize_2048
  have h2 := buildRows_cons
    { Name := "a.zip", Size := 100, BrowserDownloadURL := "https://example.com/dl/a.zip" }
    [{ Name := "b.tar", Size := 2048, BrowserDownloadURL := "https://example.com/dl/b.tar" }]
    "100 B" humanReadableSize_100
  rw [h1] at h2
  exact h2

/-- Unfolding of `main` once `renderTable` has returned a table. -/
theorem main_of_table (api : ClientFactory) (repoName tagName : String) (w : World)
    (tbl : table.Model) (h : (renderTable api repoName tagName w).1 = some tbl) :
    main api repoName tagName w =
      ((getReleaseInfo api repoName tagName (renderTable api repoName tagName w).2).1.map
          fun rlz => { table := tbl, rlz := rlz },
        (getReleaseInfo api repoName tagName (renderTable api repoName tagName w).2).2) := by
  unfold main
  simp only [h]

theorem renderTable_steadyClient : (renderTable steadyClient "cli/cli" "latest" {}).1 =
    some (table.New assetColumns [["a.zip", "100 B"], ["b.tar", "2 kB"]] true) := by
  show Option.map _ (buildRows twoAssetRelease.Assets) = _
  rw [buildRows_twoAssetRelease]
  rfl

/-- Start-up over `twoAssetRelease` yields `twoAssetSession`. -/
theorem main_steadyClient :
    (main steadyClient "cli/cli" "latest" {}).1 = some twoAssetSession := by
  rw [main_of_table _ _ _ _ _ renderTable_steadyClient]
  rfl

theorem update_emptySession :
    model.Update emptySession (tea.Msg.KeyMsg "enter") = none ∧
      model.Update emptySession (tea.Msg.KeyMsg "d") = none :=
  ⟨(update_nil_assets emptySession _ rfl).mpr (Or.inl rfl),
    (update_nil_assets emptySession _ rfl).mpr (Or.inr rfl)⟩

/-- C4 (as stated, refuted): on the session that start-up builds when the release has no assets,
both "enter" and "d" perform the lookup `m.rlz.Assets[m.table.Cursor()]` unguarded, and
`Update` panics with an out-of-range index. -/
theorem update_empty_assets_unguarded :
    (main emptyClient "cli/cli" "latest" {}).1 = some emptySession ∧
      emptySession.rlz.Assets = [] ∧
      model.Update emptySession (tea.Msg.KeyMsg "enter") = none ∧
      model.Update emptySession (tea.Msg.KeyMsg "d") = none :=
  ⟨main_emptyClient, rfl, update_emptySession.1, update_emptySession.2⟩

/-- C4 (amended): for every session whose release has an empty asset list, `Update` fails with an
out-of-range index exactly on the "enter" and "d" keys, where the lookup of the selected
asset is unguarded; on every other message it reads no asset and returns normally. -/
theorem update_empty_assets_fails_iff (m : model) (msg : tea.Msg) (h : m.rlz.Assets = []) :
    model.Update m msg = none ↔
      msg = tea.Msg.KeyMsg "enter" ∨ msg = tea.Msg.KeyMsg "d" :=
  update_nil_assets m msg h

/-- C4 (instance): the empty session and the quit key, on which `Update` does not fail. -/
theorem update_empty_assets_fails_iff_witness :
    emptySession.rlz.Assets = [] ∧
      (model.Update emptySession (tea.Msg.KeyMsg "q") = none ↔
        tea.Msg.KeyMsg "q" = tea.Msg.KeyMsg "enter" ∨
          tea.Msg.KeyMsg "q" = tea.Msg.KeyMsg "d") :=
  ⟨rfl, update_empty_assets_fails_iff emptySession (tea.Msg.KeyMsg "q") rfl⟩

/-- C5: on a valid cursor `c`, "enter" returns the model unchanged together with the single
command `Printf("Download URL: curl -LO " + Assets[c].BrowserDownloadURL)` and starts no
download. -/
theorem update_enter_prints_command (m : model) (c : ℕ) (hc : m.table.Cursor = (c : ℤ))
    (hlt : c < m.rlz.Assets.length) :
    model.Update m (tea.Msg.KeyMsg "enter") =
      some { next := m,
             cmd := tea.Cmd.Batch
               [tea.Cmd.Printf ("Download URL: curl -LO " ++ m.rlz.Assets[c].BrowserDownloadURL)],
             spawned := [] } := by
  unfold model.Update
  simp [hc, goIndex_natCast _ c hlt]

/-- C5 (instance): the two-asset session with the cursor on row 0. -/
theorem update_enter_prints_command_witness :
    (twoAssetSession.table.Cursor = ((0 : ℕ) : ℤ) ∧ 0 < twoAssetSession.rlz.Assets.length) ∧
      model.Update twoAssetSession (tea.Msg.KeyMsg "enter") =
        some { next := twoAssetSession,
               cmd := tea.Cmd.Batch
                 [tea.Cmd.Printf "Download URL: curl -LO https://example.com/dl/a.zip"],
               spawned := [] } :=
  ⟨⟨rfl, by decide⟩, update_enter_prints_command twoAssetSession 0 rfl (by decide)⟩

/-- C6 (evaluation at the failing input): in the focused session that start-up builds over a
two-asset release, cursor on row 0, "d" starts the download of the first asset, and the key
then reaches the table, whose default key map binds "d" to "half page down": the returned
cursor is 1, not 0. -/
theorem update_d_moves_cursor :
    (main steadyClient "cli/cli" "latest" {}).1 = some twoAssetSession ∧
      twoAssetSession.table.Cursor = 0 ∧ twoAssetSession.table.Focused = true ∧
      model.Update twoAssetSession (tea.Msg.KeyMsg "d") =
        some { next := { twoAssetSession with
                         table := { twoAssetSession.table with cursor := 1 } },
               cmd := tea.Cmd.nil,
               spawned := ["https://example.com/dl/a.zip"] } := by
  refine ⟨main_steadyClient, rfl, rfl, ?_⟩
  rw [update_d twoAssetSession 0 rfl (by decide)]
  rfl

/-! ## Start-up -/

/-- A call of `getReleaseInfo` whose client is built sends one request and returns the
record of the reply. -/
theorem getReleaseInfo_ok (api : ClientFactory) (repoName tagName : String) (w : World)
    (client : RESTClient) (h : api w.clientCalls = Except.ok client) :
    (getReleaseInfo api repoName tagName w).1 =
        some (client w.requests.length (releasePath repoName tagName)).response ∧
      (getReleaseInfo api repoName tagName w).2.requests =
        w.requests ++ [releasePath repoName tagName] ∧
      (getReleaseInfo api repoName tagName w).2.clientCalls = w.clientCalls + 1 := by
  unfold getReleaseInfo
  simp only [h]
  refine ⟨trivial, ?_, ?_⟩ <;> split <;> rfl

/-- A call of `getReleaseInfo` whose client cannot be built prints the error and panics
without sending a request. -/
theorem getReleaseInfo_error (api : ClientFactory) (repoName tagName : String) (w : World)
    (err : String) (h : api w.clientCalls = Except.error err) :
    getReleaseInfo api repoName tagName w =
      (none, { w with clientCalls := w.clientCalls + 1, stdout := w.stdout ++ [err] }) := by
  unfold getReleaseInfo
  simp only [h]

/-- When the client cannot be built, start-up panics in `renderTable`: no request is sent
and no model is built. -/
theorem main_noClient :
    main noClient "cli/cli" "latest" {} =
      (none, { clientCalls := 1, requests := [],
               stdout := ["authentication token not found"] }) :=
  rfl

/-- The row loop succeeds on `int` sizes and yields one (name, size) row per asset, in order. -/
theorem buildRows_spec : ∀ l : List Asset, (∀ a ∈ l, a.Size < 2 ^ 63) →
    ∃ rows, buildRows l = some rows ∧ rows.length = l.length ∧
      ∀ (i : ℕ) (h : i < l.length), ∃ sz, rows[i]? = some [l[i].Name, sz] := by
  intro l
  induction l with
  | nil =>
    intro _
    exact ⟨[], rfl, rfl, fun i h => absurd h (Nat.not_lt_zero i)⟩
  | cons a rest ih =>
    intro hsz
    obtain ⟨sz, hsz0⟩ := humanReadableSize_int_some a.Size (hsz a (List.mem_cons_self a rest))
    obtain ⟨rows, hr, hlen, hrow⟩ := ih fun x hx => hsz x (List.mem_cons_of_mem a hx)
    refine ⟨[a.Name, sz] :: rows, ?_, by simp [hlen], ?_⟩
    · simp only [buildRows, hsz0, hr, Option.map_some']
    · intro i h
      cases i with
      | zero => exact ⟨sz, by simp⟩
      | succ i =>
        obtain ⟨sz', h'⟩ := hrow i (by simpa using h)
        exact ⟨sz', by simpa using h'⟩

/-- When both clients are built, start-up sends two requests: the table is built from the
first reply, the model stores the second. -/
theorem main_spec (api : ClientFactory) (repoName tagName : String) (w : World)
    (c1 c2 : RESTClient) (h1 : api w.clientCalls = Except.ok c1)
    (h2 : api (w.clientCalls + 1) = Except.ok c2)
    (hsz : ∀ a ∈ (c1 w.requests.length (releasePath repoName tagName)).response.Assets,
      a.Size < 2 ^ 63) :
    (main api repoName tagName w).2.requests =
        w.requests ++ [releasePath repoName tagName, releasePath repoName tagName] ∧
      ∃ m, (main api repoName tagName w).1 = some m ∧
        m.rlz = (c2 (w.requests.length + 1) (releasePath repoName tagName)).response ∧
        m.table.rows.length =
          (c1 w.requests.length (releasePath repoName tagName)).response.Assets.length ∧
        (∀ (i : ℕ)
          (h : i < (c1 w.requests.length
            (releasePath repoName tagName)).response.Assets.length),
          ∃ sz, m.table.rows[i]? =
            some [((c1 w.requests.length
              (releasePath repoName tagName)).response.Assets[i]).Name, sz]) := by
  obtain ⟨rows, hr, hlen, hrow⟩ := buildRows_spec _ hsz
  obtain ⟨g1, g2, g3⟩ := getReleaseInfo_ok api repoName tagName w c1 h1
  have h2' : api (getReleaseInfo api repoName tagName w).2.clientCalls = Except.ok c2 := by
    rw [g3]
    exact h2
  obtain ⟨k1, k2, -⟩ := getReleaseInfo_ok api repoName tagName
    (getReleaseInfo api repoName tagName w).2 c2 h2'
  have hlen1 : (getReleaseInfo api repoName tagName w).2.requests.length =
      w.requests.length + 1 := by
    rw [g2]
    simp
  rw [hlen1] at k1
  have ht : renderTable api repoName tagName w =
      (some (table.New assetColumns rows true), (getReleaseInfo api repoName tagName w).2) := by
    unfold renderTable
    simp only [g1, hr]
    rfl
  have ht1 : (renderTable api repoName tagName w).1 = some (table.New assetColumns rows true) := by
    rw [ht]
  have ht2 : (renderTable api repoName tagName w).2 = (getReleaseInfo api repoName tagName w).2 := by
    rw [ht]
  have hm : main api repoName tagName w =
      (some { table := table.New assetColumns rows true,
              rlz := (c2 (w.requests.length + 1) (releasePath repoName tagName)).response },
        (getReleaseInfo api repoName tagName (getReleaseInfo api repoName tagName w).2).2) := by
    rw [main_of_table api repoName tagName w _ ht1, ht2, k1]
    rfl
  rw [hm]
  refine ⟨?_, _, rfl, rfl, hlen, hrow⟩
  show (getReleaseInfo api repoName tagName (getReleaseInfo api repoName tagName w).2).2.requests
    = _
  rw [k2, g2]
  simp

theorem main_flakyClient :
    (main flakyClient "cli/cli" "latest" {}).2.requests.length = 2 ∧
      ∃ m, (main flakyClient "cli/cli" "latest" {}).1 = some m ∧
        m.table.rows.length = 1 ∧ m.rlz.Assets.length = 0 := by
  have hsz : ∀ a ∈ (flakyGet ({} : World).requests.length
      (releasePath "cli/cli" "latest")).response.Assets, a.Size < 2 ^ 63 := by
    intro a ha
    have : a.Size = 0 := by
      simp only [flakyGet, World.requests, List.length_nil, if_true, List.mem_singleton] at ha
      rw [ha]
    rw [this]
    norm_num
  obtain ⟨h1, m, hm, hrlz, hrows, -⟩ :=
    main_spec flakyClient "cli/cli" "latest" {} flakyGet flakyGet rfl rfl hsz
  refine ⟨by rw [h1]; rfl, m, hm, ?_, ?_⟩
  · rw [hrows]; rfl
  · rw [hrlz]; rfl

/-- C7 (as stated, refuted): with a fetcher that answers the first call with a one-asset release and
fails afterwards, start-up sends two requests, and the initial model has a table of one
row over a stored release without assets. -/
theorem main_fetches_twice_mismatch :
    (main flakyClient "cli/cli" "latest" {}).2.requests.length = 2 ∧
      ∃ m, (main flakyClient "cli/cli" "latest" {}).1 = some m ∧
        m.table.rows.length = 1 ∧ m.rlz.Assets.length = 0 :=
  main_flakyClient

/-- C7 (amended): whenever `api.DefaultRESTClient()` returns a client in both calls, start-up
calls `getReleaseInfo` twice, once inside `renderTable` and once in `main`, and each call
sends one request; the table is built from the first record (one row per asset, row `i`
carrying the name of its `Assets[i]`) and the model stores the second; when the two calls
return the same record, the table has exactly `len(rlz.Assets)` rows and row `i` carries
the name of `rlz.Assets[i]`.  Asset sizes are Go `int`s, hence below `2^63`. -/
theorem main_initial_model (api : ClientFactory) (repoName tagName : String) (w : World)
    (c1 c2 : RESTClient) (h1 : api w.clientCalls = Except.ok c1)
    (h2 : api (w.clientCalls + 1) = Except.ok c2)
    (hsz : ∀ a ∈ (c1 w.requests.length (releasePath repoName tagName)).response.Assets,
      a.Size < 2 ^ 63) :
    (main api repoName tagName w).2.requests =
        w.requests ++ [releasePath repoName tagName, releasePath repoName tagName] ∧
      ∃ m, (main api repoName tagName w).1 = some m ∧
        m.rlz = (c2 (w.requests.length + 1) (releasePath repoName tagName)).response ∧
        m.table.rows.length =
          (c1 w.requests.length (releasePath repoName tagName)).response.Assets.length ∧
        (∀ (i : ℕ)
          (h : i < (c1 w.requests.length
            (releasePath repoName tagName)).response.Assets.length),
          ∃ sz, m.table.rows[i]? =
            some [((c1 w.requests.length
              (releasePath repoName tagName)).response.Assets[i]).Name, sz]) ∧
        ((c1 w.requests.length (releasePath repoName tagName)).response =
            (c2 (w.requests.length + 1) (releasePath repoName tagName)).response →
          m.table.rows.length = m.rlz.Assets.length ∧
            ∀ (i : ℕ) (h : i < m.rlz.Assets.length),
              ∃ sz, m.table.rows[i]? = some [(m.rlz.Assets[i]).Name, sz]) := by
  obtain ⟨hreq, m, hm, hrlz, hrows, hrow⟩ := main_spec api repoName tagName w c1 c2 h1 h2 hsz
  refine ⟨hreq, m, hm, hrlz, hrows, hrow, ?_⟩
  intro heq
  rw [heq] at hrows hrow
  rw [← hrlz] at hrows hrow
  exact ⟨hrows, hrow⟩

/-- C7 (amended, instance): a boundary whose client is always built and always answers with the
two-asset release. -/
theorem main_initial_model_witness :
    (steadyClient ({} : World).clientCalls = Except.ok steadyGet ∧
      steadyClient (({} : World).clientCalls + 1) = Except.ok steadyGet ∧
      ∀ a ∈ (steadyGet ({} : World).requests.length
        (releasePath "cli/cli" "latest")).response.Assets, a.Size < 2 ^ 63) ∧
    ((main steadyClient "cli/cli" "latest" {}).2.requests =
        ({} : World).requests ++ [releasePath "cli/cli" "latest", releasePath "cli/cli" "latest"] ∧
      ∃ m, (main steadyClient "cli/cli" "latest" {}).1 = some m ∧
        m.rlz = (steadyGet (({} : World).requests.length + 1)
          (releasePath "cli/cli" "latest")).response ∧
        m.table.rows.length =
          (steadyGet ({} : World).requests.length
            (releasePath "cli/cli" "latest")).response.Assets.length ∧
        (∀ (i : ℕ)
          (h : i < (steadyGet ({} : World).requests.length
            (releasePath "cli/cli" "latest")).response.Assets.length),
          ∃ sz, m.table.rows[i]? =
            some [((steadyGet ({} : World).requests.length
              (releasePath "cli/cli" "latest")).response.Assets[i]).Name, sz]) ∧
        ((steadyGet ({} : World).requests.length (releasePath "cli/cli" "latest")).response =
            (steadyGet (({} : World).requests.length + 1)
              (releasePath "cli/cli" "latest")).response →
          m.table.rows.length = m.rlz.Assets.length ∧
            ∀ (i : ℕ) (h : i < m.rlz.Assets.length),
              ∃ sz, m.table.rows[i]? = some [(m.rlz.Assets[i]).Name, sz])) := by
  have hsz : ∀ a ∈ (steadyGet ({} : World).requests.length
      (releasePath "cli/cli" "latest")).response.Assets, a.Size < 2 ^ 63 := by
    intro a ha
    simp only [steadyGet, twoAssetRelease, List.mem_cons, List.mem_singleton,
      List.not_mem_nil, or_false] at ha
    rcases ha with rfl | rfl <;> norm_num
  exact ⟨⟨rfl, rfl, hsz⟩,
    main_initial_model steadyClient "cli/cli" "latest" {} steadyGet steadyGet rfl rfl hsz⟩

/-! ## `downloadFile` -/

/-- Either the separator does not occur and `LastIndex` is `-1`, or the list splits at its
last occurrence and `LastIndex` is the length of the part before it. -/
theorem lastIndex_spec (c : Char) : ∀ s : List Char,
    (c ∉ s ∧ LastIndex s c = -1) ∨
      ∃ pre post, s = pre ++ c :: post ∧ c ∉ post ∧ LastIndex s c = (pre.length : ℤ) := by
  intro s
  induction s with
  | nil => exact Or.inl ⟨List.not_mem_nil c, rfl⟩
  | cons x xs ih =>
    rcases ih with ⟨hn, hl⟩ | ⟨pre, post, hs, hpost, hl⟩
    · by_cases hx : x = c
      · refine Or.inr ⟨[], xs, by simp [hx], hn, ?_⟩
        simp [LastIndex, hl, hx]
      · refine Or.inl ⟨?_, ?_⟩
        · simp only [List.mem_cons, not_or]
          exact ⟨fun h => hx h.symm, hn⟩
        · simp [LastIndex, hl, hx]
    · refine Or.inr ⟨x :: pre, post, by simp [hs], hpost, ?_⟩
      have h0 : (0 : ℤ) ≤ (pre.length : ℤ) := Int.natCast_nonneg _
      simp only [LastIndex, hl, if_pos h0, List.length_cons]
      push_cast
      ring

/-- C8: for every URL string `u`, the name that `downloadFile` passes to `os.Create` is the part
of `u` after its last "/" (all of `u` when it has none): the name contains no "/", and
when `u` contains a "/" then `u` is some text, then "/", then that name. -/
theorem downloadFile_name_is_last_segment (u : String) :
    ∃ name : String, downloadFile.createName u = some name ∧ '/' ∉ name.toList ∧
      ('/' ∈ u.toList → ∃ pre : String, u = pre ++ "/" ++ name) ∧
      ('/' ∉ u.toList → name = u) := by
  unfold downloadFile.createName goSliceFrom
  rcases lastIndex_spec '/' u.toList with ⟨hn, hl⟩ | ⟨pre, post, hs, hpost, hl⟩
  · refine ⟨u, ?_, hn, fun h => absurd h hn, fun _ => rfl⟩
    rw [hl, if_pos ⟨by norm_num, by omega⟩]
    rfl
  · have hlen : (pre.length : ℤ) + 1 ≤ (u.toList.length : ℤ) := by
      rw [hs]
      simp
    refine ⟨String.mk post, ?_, hpost, fun _ => ⟨String.mk pre, ?_⟩, fun h => ?_⟩
    · rw [hl, if_pos ⟨by omega, hlen⟩]
      have : ((pre.length : ℤ) + 1).toNat = pre.length + 1 := by omega
      rw [this, hs]
      simp
    · apply String.ext
      show u.toList = _
      rw [hs]
      simp [String.data_append]
    · exact absurd (by rw [hs]; simp) h

end GhFetch
